import Mathlib

/-!
# IOF: a typed byte-order codec over a file stream

A shallow embedding of `src/IOF.h` and `src/IOF.cpp` (class `IOF`): the integral
`read<T>` and `write<T>` member templates, the floating-point shims that delegate
to them, the constructor with its flags and its exception, the pass-through
members, and the part of `std::fstream` they use (`open`, `get`, `put`, `getline`,
`write`, `seekg`, `tellg`, `flush`, the state bits).

Conventions of the embedding.

* A C++ integer value is its mathematical value, an `Int`. Conversions to a
  type of `w` bits are modular (two's complement), written with an explicit
  `% 2 ^ w`; the bitwise operators act on the two's complement bit pattern.
* The integral types are the eight fixed-width ones, `int8_t` .. `uint64_t`
  (a `char`, `short`, `long`, `wchar_t` .. behaves as the one of these with its
  width and signedness). `bool` has no fixed width and is left out.
* The platform has a 32-bit `int` and a 64-bit `size_t`.
* A call of the overloaded member `write` from inside a member goes through
  overload resolution, which takes the `const` qualifiers of `IOF.h` into account.
* The stream is a byte file with one position shared by `get` and `put`,
  opened in binary mode for reading and writing and not in append mode.
* Whether a file can be opened, and with which contents, is the answer of a file
  system that the constructor takes as a parameter.
-/

namespace IOF

/-! ## Machine integers -/

/-- The fixed-width integral types `T` that `read<T>` and `write<T>` accept. -/
inductive IntType where
  | i8 | u8 | i16 | u16 | i32 | u32 | i64 | u64
  deriving DecidableEq, Repr

namespace IntType

/-- The storage width `sizeof(T)` in bytes. -/
def sizeOf : IntType → Nat
  | i8 => 1 | u8 => 1
  | i16 => 2 | u16 => 2
  | i32 => 4 | u32 => 4
  | i64 => 8 | u64 => 8

/-- Whether the type is signed, `std::is_signed_v<T>`. -/
def isSigned : IntType → Bool
  | i8 => true | i16 => true | i32 => true | i64 => true
  | u8 => false | u16 => false | u32 => false | u64 => false

/-- The width in bits. -/
def bits (T : IntType) : Nat := 8 * T.sizeOf

/-- The number of bit patterns, `2 ^ bits`. -/
def modulus (T : IntType) : Nat := 2 ^ T.bits

/-- The values representable in `T`. -/
def InRange (T : IntType) (v : Int) : Prop :=
  if T.isSigned then -((T.modulus / 2 : Nat) : Int) ≤ v ∧ v < ((T.modulus / 2 : Nat) : Int)
  else 0 ≤ v ∧ v < (T.modulus : Int)

instance (T : IntType) (v : Int) : Decidable (T.InRange v) := by
  unfold InRange; exact inferInstance

/-- The two's complement bit pattern of a value, as a number below `2 ^ bits`. -/
def repr (T : IntType) (v : Int) : Nat := (v % (T.modulus : Int)).toNat

/-- The value of type `T` that has the bit pattern `p % 2 ^ bits`. -/
def ofRepr (T : IntType) (p : Nat) : Int :=
  if T.isSigned ∧ T.modulus / 2 ≤ p % T.modulus then
    ((p % T.modulus : Nat) : Int) - (T.modulus : Int)
  else ((p % T.modulus : Nat) : Int)

/-- The conversion `static_cast<T>(x)` of an integer value to `T`: modular. -/
def conv (T : IntType) (x : Int) : Int := T.ofRepr (T.repr x)

/-- Integral promotion: a type narrower than `int` becomes `int` (32 bits), every
other type stays itself. -/
def promote : IntType → IntType
  | i8 => i32 | u8 => i32 | i16 => i32 | u16 => i32
  | T => T

/-- The operator `a << k` evaluated in type `P` (the promoted type of `a`). -/
def shl (P : IntType) (a : Int) (k : Nat) : Int := P.ofRepr (P.repr a <<< k)

/-- The operator `a >> k` evaluated in type `P`: arithmetic on a signed type,
logical on an unsigned one. Both are the floor of `a / 2 ^ k`. -/
def shr (P : IntType) (a : Int) (k : Nat) : Int := P.conv (a >>> k)

/-- The operator `a | b` evaluated in type `P`. -/
def bor (P : IntType) (a b : Int) : Int := P.ofRepr (P.repr a ||| P.repr b)

/-- The operator `a & b` evaluated in type `P`. -/
def band (P : IntType) (a b : Int) : Int := P.ofRepr (P.repr a &&& P.repr b)

end IntType

/-- The width of `size_t` arithmetic: values are taken modulo `2 ^ 64`. -/
def sizeMod : Nat := 2 ^ 64

/-- Unsigned `size_t` multiplication. -/
def mulSize (a b : Nat) : Nat := (a * b) % sizeMod

/-- Unsigned `size_t` addition. -/
def addSize (a b : Nat) : Nat := (a + b) % sizeMod

/-- Unsigned `size_t` subtraction, wrapping around below zero. -/
def subSize (a b : Nat) : Nat := (a % sizeMod + sizeMod - b % sizeMod) % sizeMod

/-- The conversion of an `int` to `size_t`. -/
def toSize (x : Int) : Nat := (x % (sizeMod : Int)).toNat

/-! ## The stream -/

/-- A byte of the file. -/
abbrev Byte := Fin 256

/-- The byte that a `char` holding the converted value `c` stores. -/
def Byte.ofInt (c : Int) : Byte := ⟨(c % 256).toNat, by omega⟩

/-- The part of `std::fstream` that the codec uses: the file's bytes, the file
position, and the three state bits. -/
structure FStream where
  data : List Byte
  pos : Nat
  eofbit : Bool
  failbit : Bool
  badbit : Bool
  deriving DecidableEq, Repr

namespace FStream

/-- Member `good()`: no state bit is set. -/
def good (s : FStream) : Bool := !s.eofbit && !s.failbit && !s.badbit

/-- Member `fail()`: `failbit` or `badbit` is set. -/
def fail (s : FStream) : Bool := s.failbit || s.badbit

/-- Member `eof()`. -/
def eof (s : FStream) : Bool := s.eofbit

/-- Member `bad()`. -/
def bad (s : FStream) : Bool := s.badbit

/-- Member `get()`: the next byte as a value in `0..255`, or the end-of-file
sentinel `-1`. On a stream that is not good it only sets `failbit`; at the end
of the data it sets `eofbit` and `failbit`. -/
def get (s : FStream) : Int × FStream :=
  if s.good then
    match s.data[s.pos]? with
    | some b => ((b.val : Int), { s with pos := s.pos + 1 })
    | none => (-1, { s with eofbit := true, failbit := true })
  else (-1, { s with failbit := true })

/-- The file after one byte is stored at offset `pos`: it replaces the byte
there, or extends the file (a gap before it reads as zero bytes). -/
def store (data : List Byte) (pos : Nat) (b : Byte) : List Byte :=
  if pos < data.length then data.set pos b
  else data ++ List.replicate (pos - data.length) 0 ++ [b]

/-- Member `put(c)`: stores one byte at the position and advances it. On a
stream that is not good it only sets `failbit`. -/
def put (s : FStream) (c : Int) : FStream :=
  if s.good then { s with data := store s.data s.pos (Byte.ofInt c), pos := s.pos + 1 }
  else { s with failbit := true }

end FStream

/-- The origin of a seek, `IOF::Reference`. -/
inductive Reference where
  | beg | cur | «end»
  deriving DecidableEq, Repr

/-- Member `seekg(off, dir)`: clears `eofbit`; a stream that has failed only gets
`failbit`, any other moves its position to `origin + off`, and a negative target
sets `failbit`.
The offset is the `size_t` argument converted to the signed 64-bit
`off_type`. -/
def FStream.seekg (s : FStream) (pos : Nat) (dir : Reference) : FStream :=
  let s1 := { s with eofbit := false }
  if s1.fail then { s1 with failbit := true }
  else
    let off : Int :=
      if pos % sizeMod < sizeMod / 2 then ((pos % sizeMod : Nat) : Int)
      else ((pos % sizeMod : Nat) : Int) - (sizeMod : Int)
    let origin : Int :=
      match dir with
      | .beg => 0
      | .cur => (s.pos : Int)
      | .«end» => (s.data.length : Int)
    if 0 ≤ origin + off then { s1 with pos := (origin + off).toNat }
    else { s1 with failbit := true }

/-! ## The session -/

/-- The byte order, `IOF::Endianness`, with its enumerator values. -/
inductive Endianness where
  | little_endian | big_endian
  deriving DecidableEq, Repr

/-- The conversion `static_cast<int>(endian)`: `little_endian = 1`,
`big_endian = -1`. -/
def Endianness.toInt : Endianness → Int
  | .little_endian => 1
  | .big_endian => -1

end IOF

/-- A session, class `IOF`: the stream `fst` and the byte order `endian`. -/
structure IOF where
  fst : IOF.FStream
  endian : IOF.Endianness
  deriving DecidableEq, Repr

namespace IOF

/-- The shift amount of `read<T>`,
`id * (8 * (i + 1) - ((id == 1) ? 8 : 8 * size))`, in `size_t` arithmetic. -/
def readShift (id : Int) (i size : Nat) : Nat :=
  mulSize (toSize id)
    (subSize (mulSize 8 (addSize i 1)) (if id = 1 then 8 else mulSize 8 size))

/-- One iteration of the loop of `read<T>`:
`value |= static_cast<T>(fst.get()) << shift`. -/
def readStep (T : IntType) (id : Int) (acc : Int × IOF) (i : Nat) : Int × IOF :=
  let g := acc.2.fst.get
  let shifted := T.promote.shl (T.conv g.1) (readShift id i T.sizeOf)
  (T.conv (T.promote.bor acc.1 shifted), { acc.2 with fst := g.2 })

/-- Member `read<T>()` for an integral `T`: the value and the session after. -/
def read (T : IntType) (self : IOF) : Int × IOF :=
  (List.range T.sizeOf).foldl (readStep T self.endian.toInt) (0, self)

/-- The argument of `fst.put` in the big-endian loop of `write<T>`:
`(value >> (8 * (k - i))) & 0xFF`. -/
def putArgBE (T : IntType) (value : Int) (k i : Nat) : Int :=
  T.promote.band (T.promote.shr value (mulSize 8 (subSize k i))) 0xFF

/-- The argument of `fst.put` in the little-endian loop of `write<T>`:
`(value >> (8 * i)) & 0xFF`. -/
def putArgLE (T : IntType) (value : Int) (i : Nat) : Int :=
  T.promote.band (T.promote.shr value (mulSize 8 i)) 0xFF

/-- Member `write<T>(value)` for an integral `T`: the session after. -/
def write (T : IntType) (value : Int) (self : IOF) : IOF :=
  match self.endian with
  | .big_endian =>
    let j := T.sizeOf
    let k := subSize j 1
    (List.range j).foldl
      (fun (s : IOF) i => { s with fst := s.fst.put (putArgBE T value k i) }) self
  | .little_endian =>
    let j := T.sizeOf
    (List.range j).foldl
      (fun (s : IOF) i => { s with fst := s.fst.put (putArgLE T value i) }) self

/-- Member `seek(pos, ref)`. -/
def seek (pos : Nat) (ref : Reference) (self : IOF) : IOF :=
  { self with fst := self.fst.seekg pos ref }

/-- Member `read<T>()` for the 4-byte floating type, enabled when
`sizeof(unsigned long int) == 4`: the bit pattern read as an `unsigned long int`,
reinterpreted as a `float`. A floating value is represented by its bit pattern,
so the reinterpretation keeps the number. -/
def readFloat (self : IOF) : Nat × IOF :=
  let r := read .u32 self
  (r.1.toNat, r.2)

/-- Member `read<T>()` for the 8-byte floating type: the bit pattern read as an
`unsigned long long int`, reinterpreted as a `double`. -/
def readDouble (self : IOF) : Nat × IOF :=
  let r := read .u64 self
  (r.1.toNat, r.2)

/-- The overloads of the member `write` that `IOF.h` declares: the integral
template, the two floating templates, `write(char*, size_t)` and
`write(const std::string&)`. -/
inductive WriteOverload where
  | integral | floating4 | floating8 | buffer | string
  deriving DecidableEq, Repr

/-- Whether the overload is declared `const`: the two floating templates are, the
other three are not. -/
def WriteOverload.isConst : WriteOverload → Bool
  | .floating4 => true
  | .floating8 => true
  | .integral => false
  | .buffer => false
  | .string => false

/-- The arguments of a call `write(..)`: one value of an integral type, one value of
a floating type of a width in bytes, a `char*` with a size, or a string. -/
inductive WriteArgs where
  | integral (T : IntType)
  | floating (width : Nat)
  | buffer
  | string
  deriving DecidableEq, Repr

/-- Whether the parameters of an overload take the arguments: for the templates,
deduction with the `enable_if` condition (`is_integral_v<T>`, or
`is_floating_point_v<T>` with the width 4 or 8). No conversion leads from an
integral or floating value to `std::string` or to the two parameters of the
buffer overload. -/
def WriteOverload.accepts : WriteOverload → WriteArgs → Bool
  | .integral, .integral _ => true
  | .floating4, .floating w => w == 4
  | .floating8, .floating w => w == 8
  | .buffer, .buffer => true
  | .string, .string => true
  | _, _ => false

/-- Overload resolution of a call `write(..)` on a session that is `const` or not:
an overload is viable when its parameters take the arguments and, on a `const`
session, it is declared `const`. The result is the viable overload, or `none` when
there is no viable one and the call is ill-formed. -/
def resolveWrite (constObject : Bool) (args : WriteArgs) : Option WriteOverload :=
  [WriteOverload.integral, .floating4, .floating8, .buffer, .string].find?
    (fun o => o.accepts args && (o.isConst || !constObject))

/-- Member `write<T>(value) const` for the 4-byte floating type: the bit pattern of
`value` reinterpreted as an `unsigned long int`, handed to the call
`write(fbinary_repr)`. The member is `const`, so the call is resolved on a `const`
session; the result is the session after the selected overload, or `none` when the
call selects no overload. -/
def writeFloat (value : Nat) (self : IOF) : Option IOF :=
  match resolveWrite true (.integral .u32) with
  | some .integral => some (write .u32 (value : Int) self)
  | _ => none

/-- Member `write<T>(value) const` for the 8-byte floating type: the bit pattern of
`value` reinterpreted as an `unsigned long long int`, handed to the call
`write(fbinary_repr)`, resolved on a `const` session as for the 4-byte type. -/
def writeDouble (value : Nat) (self : IOF) : Option IOF :=
  match resolveWrite true (.integral .u64) with
  | some .integral => some (write .u64 (value : Int) self)
  | _ => none

/-! ## Vocabulary of the statements -/

/-- The stream after `n` successive calls of `get`. -/
def FStream.getN (n : Nat) (s : FStream) : FStream :=
  (fun t => (FStream.get t).2)^[n] s

/-- The value that call number `i` (counted from 0) of `get` returns. -/
def FStream.nthGet (s : FStream) (i : Nat) : Int := (FStream.get (s.getN i)).1

/-- The stream after the values `cs` are handed to `put` one by one, in order. -/
def FStream.putAll (s : FStream) (cs : List Int) : FStream := cs.foldl FStream.put s

/-- The stream is good and the bytes `bs` are the next ones at its position. -/
def FStream.Ahead (s : FStream) (bs : List Byte) : Prop :=
  s.good = true ∧ (s.data.drop s.pos).take bs.length = bs

instance (s : FStream) (bs : List Byte) : Decidable (s.Ahead bs) := by
  unfold FStream.Ahead; exact inferInstance

/-- The number whose byte `i` (bits `[8i, 8i+7]`) is `bs[i]`: least-significant
byte first. -/
def valueLE : List Byte → Nat
  | [] => 0
  | b :: bs => b.val + 256 * valueLE bs

/-- The number whose bytes are `bs`, most-significant byte first. -/
def valueBE (bs : List Byte) : Nat := bs.foldl (fun acc b => 256 * acc + b.val) 0

/-- A session on a good stream with the given bytes and position. -/
def session (e : Endianness) (data : List Byte) (pos : Nat) : IOF :=
  { fst := { data := data, pos := pos, eofbit := false, failbit := false, badbit := false },
    endian := e }

/-- The accumulator `value` of `read<T>` after its first `n` iterations, when call
`i` of `get` returns `c i`. -/
def accumulate (T : IntType) (id : Int) (c : Nat → Int) (n : Nat) : Int :=
  (List.range n).foldl
    (fun v i => T.conv (T.promote.bor v (T.promote.shl (T.conv (c i)) (readShift id i T.sizeOf)))) 0

/-- The file after the bytes `bs` are stored at offsets `pos`, `pos + 1`, .. -/
def FStream.storeAll : List Byte → Nat → List Byte → List Byte
  | data, _, [] => data
  | data, pos, b :: bs => FStream.storeAll (FStream.store data pos b) (pos + 1) bs

/-- The bytes of the number `p`, least-significant first: byte `i` is bits
`[8i, 8i+7]` of `p`. -/
def bytesLE (p n : Nat) : List Byte :=
  (List.range n).map (fun i => Byte.ofInt ((p / 2 ^ (8 * i) : Nat) : Int))

/-! ## The constructor -/

/-- The open-mode flags, `IOF::Flags`: an enumeration over `int`, so a value is
any `int`, among them the enumerators and their combinations. -/
structure Flags where
  val : Int
  deriving DecidableEq, Repr

namespace Flags

/-- Enumerator `in = 1`. -/
def «in» : Flags := ⟨1⟩

/-- Enumerator `out = 2`. -/
def out : Flags := ⟨2⟩

/-- Enumerator `bin = 4`. -/
def bin : Flags := ⟨4⟩

/-- Enumerator `ate = 8`. -/
def ate : Flags := ⟨8⟩

/-- Enumerator `app = 16`. -/
def app : Flags := ⟨16⟩

/-- Enumerator `big_endian = 32`. -/
def big_endian : Flags := ⟨32⟩

/-- The operator `lhs | rhs` that `DECLARE_ENUM_BITFLAGS_OPERS` declares: the
bitwise or of the underlying `int`s. -/
def operatorOr (lhs rhs : Flags) : Flags := ⟨IntType.i32.bor lhs.val rhs.val⟩

/-- The operator `lhs & rhs` that `DECLARE_ENUM_BITFLAGS_OPERS` declares: whether
the bitwise and of the underlying `int`s is non-zero. -/
def operatorAnd (lhs rhs : Flags) : Bool := decide (IntType.i32.band lhs.val rhs.val ≠ 0)

end Flags

/-- The bitmask `std::ios_base::openmode`, one field for each bit that the
constructor may set. -/
structure OpenMode where
  binary : Bool
  app : Bool
  ate : Bool
  «in» : Bool
  out : Bool
  deriving DecidableEq, Repr

/-- The environment of `fstream::open`: for a file name and an open mode, either the
contents and the initial position of the opened file, or `none` when the file
cannot be opened. -/
abbrev FileSystem := String → OpenMode → Option (List Byte × Nat)

/-- Member `open(filename, mode)` on a newly constructed stream: a good stream on
the file, or a stream with `failbit` set when the file cannot be opened. -/
def FStream.open (fs : FileSystem) (filename : String) (mode : OpenMode) : FStream :=
  match fs filename mode with
  | some (data, pos) =>
    { data := data, pos := pos, eofbit := false, failbit := false, badbit := false }
  | none => { data := [], pos := 0, eofbit := false, failbit := true, badbit := false }

/-- The exception class `IOF::Exception`, holding its message `text`. -/
structure Exception where
  text : String
  deriving DecidableEq, Repr

/-- Member `what()` of `IOF::Exception`. -/
def Exception.what (e : Exception) : String := e.text

/-- The open mode that the constructor computes from its flags. -/
def openMode (flags : Flags) : OpenMode :=
  let mode : OpenMode := ⟨false, false, false, false, false⟩
  let mode := if flags.operatorAnd Flags.bin then { mode with binary := true } else mode
  let mode := if flags.operatorAnd Flags.app then { mode with app := true } else mode
  let mode := if flags.operatorAnd Flags.ate then { mode with ate := true } else mode
  let mode := if flags.operatorAnd Flags.«in» then { mode with «in» := true } else mode
  let mode := if flags.operatorAnd Flags.out then { mode with out := true } else mode
  mode

/-- The constructor `IOF::IOF(filename, flags)`: the session, or the exception it
throws. -/
def construct (fs : FileSystem) (filename : String) (flags : Flags) : Except Exception IOF :=
  let endian := Endianness.little_endian
  let mode := openMode flags
  let endian := if flags.operatorAnd Flags.big_endian then Endianness.big_endian else endian
  let fst := FStream.open fs filename mode
  if fst.fail then
    let str := "[IOF]: error -> could not open file: " ++ filename
    Except.error ⟨str⟩
  else Except.ok ⟨fst, endian⟩

/-! ## The pass-through members -/

/-- The extraction of `getline` over the bytes left in the file, with room for
`room` more bytes: the bytes stored, the number of bytes extracted, and whether
`eofbit` and `failbit` are to be set. The end of the file is tested first, then
the delimiter (extracted, not stored), then the room. -/
def FStream.getlineLoop : List Byte → Nat → List Byte × Nat × Bool × Bool
  | [], _ => ([], 0, true, false)
  | c :: rest, room =>
    if c.val = 10 then ([], 1, false, false)
    else if room = 0 then ([], 0, false, true)
    else
      let r := FStream.getlineLoop rest (room - 1)
      (c :: r.1, r.2.1 + 1, r.2.2.1, r.2.2.2)

/-- Member `getline(s, n)`: the bytes stored in `s` before the terminating zero,
and the stream after. A call that extracts nothing sets `failbit`. -/
def FStream.getline (s : FStream) (n : Nat) : List Byte × FStream :=
  if s.good then
    let r := FStream.getlineLoop (s.data.drop s.pos) (n - 1)
    (r.1, { s with pos := s.pos + r.2.1, eofbit := r.2.2.1,
                   failbit := r.2.2.2 || decide (r.2.1 = 0) })
  else ([], { s with failbit := true })

/-- Member `write(s, n)` of the stream: stores the bytes at the position and
advances it. On a stream that is not good it only sets `failbit`. -/
def FStream.write (s : FStream) (bytes : List Byte) : FStream :=
  if s.good then
    { s with data := FStream.storeAll s.data s.pos bytes, pos := s.pos + bytes.length }
  else { s with failbit := true }

/-- Member `tellg()`: the position, or `-1` on a stream that is not good, which
also gets `failbit`. -/
def FStream.tellg (s : FStream) : Int × FStream :=
  if s.good then ((s.pos : Int), s) else (-1, { s with failbit := true })

/-- Member `flush()`: nothing is buffered, so a good stream stays as it is; a
stream that is not good gets `failbit`. -/
def FStream.flush (s : FStream) : FStream :=
  if s.good then s else { s with failbit := true }

/-- Member `read(src, maxsize)`: `fst.getline(src, maxsize)`; the bytes stored in
`src` and the session after. -/
def readBuf (maxsize : Nat) (self : IOF) : List Byte × IOF :=
  let r := self.fst.getline maxsize
  (r.1, { self with fst := r.2 })

/-- Member `write(src, maxsize)`: `fst.write(src, maxsize)`, the first `maxsize`
bytes of the buffer `src`. -/
def writeBuf (src : List Byte) (maxsize : Nat) (self : IOF) : IOF :=
  { self with fst := self.fst.write (src.take maxsize) }

/-- Member `write(line)` for a string: `fst.write(line.c_str(), line.length())`. -/
def writeString (line : List Byte) (self : IOF) : IOF :=
  { self with fst := self.fst.write (line.take line.length) }

/-- Member `tell()`: `fst.tellg()`. -/
def tell (self : IOF) : Int × IOF :=
  let r := self.fst.tellg
  (r.1, { self with fst := r.2 })

/-- Member `flush()`. -/
def flush (self : IOF) : IOF := { self with fst := self.fst.flush }

/-- Member `is_fail()`. -/
def is_fail (self : IOF) : Bool := self.fst.fail

/-- Member `is_eof()`. -/
def is_eof (self : IOF) : Bool := self.fst.eof

/-- Member `is_good()`. -/
def is_good (self : IOF) : Bool := self.fst.good

/-- Member `is_bad()`. -/
def is_bad (self : IOF) : Bool := self.fst.bad

/-- A call of a member function on an open session, with its arguments. The calls
`writeFloat` and `writeDouble` stand for the body of the floating `write`
overloads, the integral `write` of the bit pattern. -/
inductive Op where
  | readInt (T : IntType)
  | readFloat
  | readDouble
  | writeInt (T : IntType) (value : Int)
  | writeFloat (value : Nat)
  | writeDouble (value : Nat)
  | readBuf (maxsize : Nat)
  | writeBuf (src : List Byte) (maxsize : Nat)
  | writeString (line : List Byte)
  | tell
  | seek (pos : Nat) (ref : Reference)
  | flush
  | is_fail
  | is_eof
  | is_good
  | is_bad
  deriving Repr

/-- The session after a call. The status queries leave it as it is. -/
def Op.run : Op → IOF → IOF
  | .readInt T, s => (read T s).2
  | .readFloat, s => (IOF.readFloat s).2
  | .readDouble, s => (IOF.readDouble s).2
  | .writeInt T v, s => write T v s
  | .writeFloat v, s => write .u32 (v : Int) s
  | .writeDouble v, s => write .u64 (v : Int) s
  | .readBuf n, s => (IOF.readBuf n s).2
  | .writeBuf src n, s => IOF.writeBuf src n s
  | .writeString line, s => IOF.writeString line s
  | .tell, s => (IOF.tell s).2
  | .seek pos ref, s => IOF.seek pos ref s
  | .flush, s => IOF.flush s
  | .is_fail, s => s
  | .is_eof, s => s
  | .is_good, s => s
  | .is_bad, s => s

/-- The session after a sequence of calls, made in order. -/
def runAll (ops : List Op) (s : IOF) : IOF := ops.foldl (fun t op => op.run t) s

/-! ## Vocabulary of the statements on sequences of calls -/

/-- The enumerators of `IOF::Flags`. -/
def Flags.enumerators : List Flags :=
  [Flags.«in», Flags.out, Flags.bin, Flags.ate, Flags.app, Flags.big_endian]

/-- The combination `first | f_1 | .. | f_n` of flags. -/
def Flags.combine (first : Flags) (rest : List Flags) : Flags :=
  rest.foldl Flags.operatorOr first

/-- The unsigned type of the same width. -/
def IntType.toUnsigned : IntType → IntType
  | .i8 => .u8 | .u8 => .u8
  | .i16 => .u16 | .u16 => .u16
  | .i32 => .u32 | .u32 => .u32
  | .i64 => .u64 | .u64 => .u64

/-- The bytes of a value of `T` in a byte order, in stream order. -/
def encode (e : Endianness) (T : IntType) (v : Int) : List Byte :=
  match e with
  | .little_endian => bytesLE (T.repr v) T.sizeOf
  | .big_endian => (bytesLE (T.repr v) T.sizeOf).reverse

/-- The session after `write<T>(v)` is called for each `(T, v)` of a list, in order. -/
def writeAll (vs : List (IntType × Int)) (s : IOF) : IOF :=
  vs.foldl (fun t x => write x.1 x.2 t) s

/-- The values that `read<T>()` returns when called for each `T` of a list, in
order, and the session after. -/
def readAll : List IntType → IOF → List Int × IOF
  | [], s => ([], s)
  | T :: Ts, s =>
    let r := read T s
    let rest := readAll Ts r.2
    (r.1 :: rest.1, rest.2)

/-- A file system that holds one file, `"data.bin"`, with the bytes `1 2 3 4`. -/
def oneFile : FileSystem :=
  fun name _ => if name = "data.bin" then some ([1, 2, 3, 4], 0) else none

/-- The bytes of a list of typed values in a byte order: the encodings one after
another. -/
def encodeAll (e : Endianness) : List (IntType × Int) → List Byte
  | [] => []
  | x :: xs => encode e x.1 x.2 ++ encodeAll e xs

/-! ## Machine integers: conversions and bit patterns -/

theorem IntType.modulus_cases (T : IntType) :
    T.modulus = 256 ∨ T.modulus = 65536 ∨ T.modulus = 4294967296 ∨
      T.modulus = 18446744073709551616 := by
  cases T <;> decide

theorem IntType.promote_modulus_cases (T : IntType) :
    T.promote.modulus = 4294967296 ∨ T.promote.modulus = 18446744073709551616 := by
  cases T <;> decide

theorem IntType.modulus_pos (T : IntType) : 0 < T.modulus := by
  rcases T.modulus_cases with h | h | h | h <;> omega

theorem IntType.repr_lt (T : IntType) (v : Int) : T.repr v < T.modulus := by
  unfold IntType.repr
  rcases T.modulus_cases with h | h | h | h <;> rw [h] <;> omega

theorem IntType.repr_ofRepr (T : IntType) (p : Nat) : T.repr (T.ofRepr p) = p % T.modulus := by
  unfold IntType.repr IntType.ofRepr
  rcases T.modulus_cases with h | h | h | h <;> rw [h] <;> split_ifs <;> omega

/-- A conversion to `T` leaves a value of `T` unchanged. -/
theorem IntType.conv_of_inRange (T : IntType) (v : Int) (h : T.InRange v) : T.conv v = v := by
  unfold IntType.InRange at h
  unfold IntType.conv IntType.ofRepr IntType.repr
  rcases T.modulus_cases with hm | hm | hm | hm <;> rw [hm] at h ⊢ <;>
    cases hs : T.isSigned <;>
    simp only [hs, if_true, true_and, false_and, if_false, Bool.false_eq_true] at h ⊢ <;>
    (try split_ifs) <;> omega

theorem IntType.inRange_ofRepr (T : IntType) (p : Nat) : T.InRange (T.ofRepr p) := by
  unfold IntType.InRange IntType.ofRepr
  rcases T.modulus_cases with hm | hm | hm | hm <;> rw [hm] <;>
    cases hs : T.isSigned <;>
    simp only [hs, if_true, true_and, false_and, if_false, Bool.false_eq_true] <;>
    (try split_ifs) <;> omega

theorem IntType.repr_promote (T : IntType) (p : Nat) :
    T.repr (T.promote.ofRepr p) = p % T.modulus := by
  cases T <;> simp only [IntType.promote, IntType.repr_ofRepr] <;>
    unfold IntType.repr IntType.ofRepr <;>
    simp only [show IntType.i32.modulus = 4294967296 from by decide,
      show IntType.i8.modulus = 256 from by decide,
      show IntType.u8.modulus = 256 from by decide,
      show IntType.i16.modulus = 65536 from by decide,
      show IntType.u16.modulus = 65536 from by decide] <;>
    (try split_ifs) <;> omega

theorem IntType.promote_repr_mod (T : IntType) (v : Int) :
    T.promote.repr v % T.modulus = T.repr v := by
  cases T <;> simp only [IntType.promote] <;>
    unfold IntType.repr <;>
    simp only [show IntType.i32.modulus = 4294967296 from by decide,
      show IntType.i8.modulus = 256 from by decide,
      show IntType.u8.modulus = 256 from by decide,
      show IntType.i16.modulus = 65536 from by decide,
      show IntType.u16.modulus = 65536 from by decide,
      show IntType.u32.modulus = 4294967296 from by decide,
      show IntType.i64.modulus = 18446744073709551616 from by decide,
      show IntType.u64.modulus = 18446744073709551616 from by decide] <;>
    omega

theorem lor_mod_two_pow (a b n : Nat) : (a ||| b) % 2 ^ n = a % 2 ^ n ||| b % 2 ^ n := by
  apply Nat.eq_of_testBit_eq
  intro i
  simp only [Nat.testBit_mod_two_pow, Nat.testBit_or, Bool.and_or_distrib_left]

theorem IntType.repr_conv (T : IntType) (v : Int) : T.repr (T.conv v) = T.repr v := by
  unfold IntType.conv
  rw [IntType.repr_ofRepr, Nat.mod_eq_of_lt (T.repr_lt v)]

theorem IntType.inRange_conv (T : IntType) (v : Int) : T.InRange (T.conv v) :=
  T.inRange_ofRepr _

/-- Two values of `T` with the same bit pattern are equal. -/
theorem IntType.eq_of_repr_eq (T : IntType) (a b : Int) (ha : T.InRange a) (hb : T.InRange b)
    (h : T.repr a = T.repr b) : a = b := by
  rw [← T.conv_of_inRange a ha, ← T.conv_of_inRange b hb]
  unfold IntType.conv
  rw [h]

theorem IntType.repr_bor (T : IntType) (a b : Int) :
    T.repr (T.promote.bor a b) = T.repr a ||| T.repr b := by
  unfold IntType.bor
  rw [IntType.repr_promote]
  unfold IntType.modulus
  rw [lor_mod_two_pow]
  have h1 := T.promote_repr_mod a
  have h2 := T.promote_repr_mod b
  unfold IntType.modulus at h1 h2
  rw [h1, h2]

theorem IntType.repr_shl (T : IntType) (c : Int) (k : Nat) :
    T.repr (T.promote.shl (T.conv c) k) = (T.repr c <<< k) % T.modulus := by
  unfold IntType.shl
  rw [IntType.repr_promote, Nat.shiftLeft_eq, Nat.shiftLeft_eq, Nat.mul_mod,
    IntType.promote_repr_mod, IntType.repr_conv, Nat.mul_mod_mod]

/-- The bit pattern after one accumulation `value |= static_cast<T>(c) << k`. -/
theorem IntType.repr_accumulate (T : IntType) (a c : Int) (k : Nat) :
    T.repr (T.conv (T.promote.bor a (T.promote.shl (T.conv c) k)))
      = T.repr a ||| (T.repr c <<< k) % T.modulus := by
  rw [IntType.repr_conv, IntType.repr_bor, IntType.repr_shl]

/-- The byte `(value >> k) & 0xFF` is the floor of `value / 2 ^ k`, modulo 256. -/
theorem IntType.band_shr (T : IntType) (v : Int) (k : Nat) :
    T.promote.band (T.promote.shr v k) 0xFF = (v / ((2 ^ k : Nat) : Int)) % 256 := by
  unfold IntType.band IntType.shr
  rw [IntType.repr_conv, Int.shiftRight_eq_div_pow]
  generalize v / ((2 ^ k : Nat) : Int) = x
  have h255 : T.promote.repr 255 = 2 ^ 8 - 1 := by
    unfold IntType.repr
    rcases T.promote_modulus_cases with h | h <;> rw [h] <;> omega
  rw [h255, Nat.and_pow_two_sub_one_eq_mod]
  unfold IntType.ofRepr IntType.repr
  rcases T.promote_modulus_cases with h | h <;> rw [h] <;> split_ifs <;> omega

/-- Byte `i` of the bit pattern of `v` is the floor of `v / 2 ^ (8 i)`, modulo 256. -/
theorem IntType.byte_repr (T : IntType) (v : Int) (i : Nat) (hi : i < T.sizeOf) :
    ((v / ((2 ^ (8 * i) : Nat) : Int)) % 256).toNat = T.repr v / 2 ^ (8 * i) % 256 := by
  unfold IntType.repr
  cases T <;> simp only [IntType.sizeOf] at hi <;> interval_cases i <;>
    simp only [show IntType.i32.modulus = 4294967296 from by decide,
      show IntType.i8.modulus = 256 from by decide,
      show IntType.u8.modulus = 256 from by decide,
      show IntType.i16.modulus = 65536 from by decide,
      show IntType.u16.modulus = 65536 from by decide,
      show IntType.u32.modulus = 4294967296 from by decide,
      show IntType.i64.modulus = 18446744073709551616 from by decide,
      show IntType.u64.modulus = 18446744073709551616 from by decide,
      Nat.reducePow, Nat.reduceMul] <;>
    omega

/-! ## The stream: reading -/

theorem FStream.getN_succ (n : Nat) (s : FStream) :
    s.getN (n + 1) = (FStream.get (s.getN n)).2 := by
  unfold FStream.getN
  rw [Function.iterate_succ_apply']

theorem FStream.Ahead.getElem? {s : FStream} {bs : List Byte} (h : s.Ahead bs) (i : Nat)
    (hi : i < bs.length) : s.data[s.pos + i]? = bs[i]? := by
  have h2 := h.2
  have : ((s.data.drop s.pos).take bs.length)[i]? = bs[i]? := by rw [h2]
  rw [List.getElem?_take_of_lt hi, List.getElem?_drop] at this
  exact this

/-- While the bytes ahead last, `n` calls of `get` only advance the position by `n`. -/
theorem FStream.Ahead.getN {s : FStream} {bs : List Byte} (h : s.Ahead bs) (n : Nat)
    (hn : n ≤ bs.length) : s.getN n = { s with pos := s.pos + n } := by
  induction n with
  | zero => rfl
  | succ n ih =>
    rw [FStream.getN_succ, ih (by omega)]
    have hg : s.good = true := h.1
    have he := h.getElem? n (by omega)
    rw [List.getElem?_eq_getElem (by omega : n < bs.length)] at he
    unfold FStream.get
    have hg2 : ({ s with pos := s.pos + n } : FStream).good = true := hg
    simp only [hg2, if_true, he]
    rfl

/-- While the bytes ahead last, call `i` of `get` returns byte `i` of them. -/
theorem FStream.Ahead.nthGet {s : FStream} {bs : List Byte} (h : s.Ahead bs) (i : Nat)
    (hi : i < bs.length) : s.nthGet i = ((bs[i]).val : Int) := by
  unfold FStream.nthGet
  rw [h.getN i (by omega)]
  have hg : s.good = true := h.1
  have he := h.getElem? i hi
  rw [List.getElem?_eq_getElem hi] at he
  unfold FStream.get
  have hg2 : ({ s with pos := s.pos + i } : FStream).good = true := hg
  simp only [hg2, if_true, he]

/-! ## The loop of `read<T>` -/

theorem accumulate_succ (T : IntType) (id : Int) (c : Nat → Int) (n : Nat) :
    accumulate T id c (n + 1) = T.conv (T.promote.bor (accumulate T id c n)
      (T.promote.shl (T.conv (c n)) (readShift id n T.sizeOf))) := by
  unfold accumulate
  rw [List.range_succ, List.foldl_append]
  rfl

/-- The loop of `read<T>` after `n` iterations: `n` calls of `get`, accumulated. -/
theorem read_loop (T : IntType) (self : IOF) (n : Nat) :
    (List.range n).foldl (readStep T self.endian.toInt) (0, self)
      = (accumulate T self.endian.toInt self.fst.nthGet n,
          { self with fst := self.fst.getN n }) := by
  induction n with
  | zero => rfl
  | succ n ih =>
    rw [List.range_succ, List.foldl_append, ih, accumulate_succ, FStream.getN_succ]
    rfl

theorem read_eq (T : IntType) (self : IOF) :
    read T self = (accumulate T self.endian.toInt self.fst.nthGet T.sizeOf,
      { self with fst := self.fst.getN T.sizeOf }) :=
  read_loop T self T.sizeOf

theorem inRange_accumulate (T : IntType) (id : Int) (c : Nat → Int) (n : Nat) :
    T.InRange (accumulate T id c n) := by
  cases n with
  | zero =>
    show T.InRange 0
    cases T <;> decide
  | succ n => rw [accumulate_succ]; exact T.inRange_conv _

theorem repr_accumulate_succ (T : IntType) (id : Int) (c : Nat → Int) (n : Nat) :
    T.repr (accumulate T id c (n + 1)) = T.repr (accumulate T id c n) |||
      (T.repr (c n) <<< readShift id n T.sizeOf) % T.modulus := by
  rw [accumulate_succ, IntType.repr_accumulate]

theorem toSize_one : toSize 1 = 1 := by decide

theorem toSize_neg_one : toSize (-1) = 18446744073709551615 := by decide

theorem readShift_little (i size : Nat) (hi : i < size) (hs : size ≤ 8) :
    readShift 1 i size = 8 * i := by
  unfold readShift
  rw [toSize_one]
  unfold mulSize subSize addSize sizeMod
  simp only [if_true, Nat.reducePow]
  omega

theorem readShift_big (i size : Nat) (hi : i < size) (hs : size ≤ 8) :
    readShift (-1) i size = 8 * (size - 1 - i) := by
  unfold readShift
  rw [toSize_neg_one]
  unfold mulSize subSize addSize sizeMod
  simp only [show ((-1 : Int) = 1) = False from by decide, if_false, Nat.reducePow]
  omega

theorem valueLE_lt (bs : List Byte) : valueLE bs < 2 ^ (8 * bs.length) := by
  induction bs with
  | nil => simp [valueLE]
  | cons b bs ih =>
    have hb := b.isLt
    have : 2 ^ (8 * (b :: bs).length) = 256 * 2 ^ (8 * bs.length) := by
      rw [List.length_cons, Nat.mul_succ, Nat.pow_add]; ring
    rw [this]
    simp only [valueLE]
    omega

theorem valueLE_append (xs ys : List Byte) :
    valueLE (xs ++ ys) = valueLE xs + 2 ^ (8 * xs.length) * valueLE ys := by
  induction xs with
  | nil => simp [valueLE]
  | cons b xs ih =>
    have : 2 ^ (8 * (b :: xs).length) = 256 * 2 ^ (8 * xs.length) := by
      rw [List.length_cons, Nat.mul_succ, Nat.pow_add]; ring
    rw [this, List.cons_append]
    simp only [valueLE, ih]
    ring

theorem valueBE_foldl (a : Nat) (ys : List Byte) :
    ys.foldl (fun acc b => 256 * acc + b.val) a
      = 2 ^ (8 * ys.length) * a + ys.foldl (fun acc b => 256 * acc + b.val) 0 := by
  induction ys generalizing a with
  | nil => simp
  | cons b ys ih =>
    have : 2 ^ (8 * (b :: ys).length) = 256 * 2 ^ (8 * ys.length) := by
      rw [List.length_cons, Nat.mul_succ, Nat.pow_add]; ring
    rw [this, List.foldl_cons, List.foldl_cons, ih (256 * a + b.val), ih (256 * 0 + b.val)]
    ring

theorem valueBE_append (xs ys : List Byte) :
    valueBE (xs ++ ys) = 2 ^ (8 * ys.length) * valueBE xs + valueBE ys := by
  unfold valueBE
  rw [List.foldl_append, valueBE_foldl]

theorem valueBE_eq_valueLE_reverse (bs : List Byte) : valueBE bs = valueLE bs.reverse := by
  induction bs using List.reverseRecOn with
  | nil => rfl
  | append_singleton ys b ih =>
    rw [valueBE_append, List.reverse_append, ih]
    simp [valueLE, valueBE]
    ring

theorem valueBE_lt (bs : List Byte) : valueBE bs < 2 ^ (8 * bs.length) := by
  rw [valueBE_eq_valueLE_reverse, ← List.length_reverse bs]
  exact valueLE_lt _


theorem IntType.sizeOf_pos (T : IntType) : 0 < T.sizeOf := by cases T <;> decide

theorem IntType.sizeOf_le (T : IntType) : T.sizeOf ≤ 8 := by cases T <;> decide

theorem IntType.modulus_eq (T : IntType) : T.modulus = 2 ^ (8 * T.sizeOf) := rfl

theorem IntType.repr_byte (T : IntType) (b : Byte) : T.repr ((b.val : Nat) : Int) = b.val := by
  have hb := b.isLt
  unfold IntType.repr
  rcases T.modulus_cases with h | h | h | h <;> rw [h] <;> omega

theorem take_succ_getD (bs : List Byte) (n : Nat) (hn : n < bs.length) :
    bs.take (n + 1) = bs.take n ++ [bs.getD n 0] := by
  rw [List.take_succ, List.getElem?_eq_getElem hn, List.getD_eq_getElem _ _ hn]
  rfl

theorem byte_shift_lt (b : Byte) (k n : Nat) (h : k < n) : b.val * 2 ^ (8 * k) < 2 ^ (8 * n) := by
  have hb := b.isLt
  have h1 : 2 ^ (8 * (k + 1)) ≤ 2 ^ (8 * n) := Nat.pow_le_pow_right (by decide) (by omega)
  have h2 : 2 ^ (8 * (k + 1)) = 256 * 2 ^ (8 * k) := by
    rw [Nat.mul_succ, Nat.pow_add]; ring
  have h3 : b.val * 2 ^ (8 * k) < 256 * 2 ^ (8 * k) :=
    Nat.mul_lt_mul_of_pos_right hb (Nat.pos_pow_of_pos _ (by decide))
  omega

/-- Little-endian accumulation of the first `n` bytes: their little-endian number. -/
theorem repr_accumulate_little (T : IntType) (c : Nat → Int) (bs : List Byte)
    (hlen : bs.length = T.sizeOf) (hc : ∀ i, i < bs.length → c i = (((bs.getD i 0).val : Nat) : Int))
    (n : Nat) (hn : n ≤ T.sizeOf) :
    T.repr (accumulate T 1 c n) = valueLE (bs.take n) := by
  induction n with
  | zero =>
    show T.repr 0 = 0
    unfold IntType.repr
    simp
  | succ n ih =>
    rw [repr_accumulate_succ, ih (by omega), hc n (by omega), T.repr_byte,
      readShift_little n T.sizeOf (by omega) T.sizeOf_le, Nat.shiftLeft_eq,
      T.modulus_eq, Nat.mod_eq_of_lt (byte_shift_lt _ n T.sizeOf (by omega)),
      take_succ_getD bs n (by omega), valueLE_append]
    have hl : (bs.take n).length = n := by rw [List.length_take]; omega
    have hlt := valueLE_lt (bs.take n)
    rw [hl] at hlt ⊢
    rw [Nat.lor_comm, Nat.mul_comm, ← Nat.mul_add_lt_is_or hlt]
    simp only [valueLE]
    ring

/-- Big-endian accumulation of the first `n` bytes: their big-endian number, in
the high bytes. -/
theorem repr_accumulate_big (T : IntType) (c : Nat → Int) (bs : List Byte)
    (hlen : bs.length = T.sizeOf) (hc : ∀ i, i < bs.length → c i = (((bs.getD i 0).val : Nat) : Int))
    (n : Nat) (hn : n ≤ T.sizeOf) :
    T.repr (accumulate T (-1) c n) = 2 ^ (8 * (T.sizeOf - n)) * valueBE (bs.take n) := by
  induction n with
  | zero =>
    show T.repr 0 = _
    unfold IntType.repr
    simp [valueBE]
  | succ n ih =>
    rw [repr_accumulate_succ, ih (by omega), hc n (by omega), T.repr_byte,
      readShift_big n T.sizeOf (by omega) T.sizeOf_le, Nat.shiftLeft_eq,
      T.modulus_eq, Nat.mod_eq_of_lt (byte_shift_lt _ _ T.sizeOf (by omega)),
      take_succ_getD bs n (by omega), valueBE_append]
    have hx : (bs.getD n 0).val * 2 ^ (8 * (T.sizeOf - 1 - n)) < 2 ^ (8 * (T.sizeOf - n)) :=
      byte_shift_lt _ _ _ (by omega)
    rw [← Nat.mul_add_lt_is_or hx]
    have h2 : 2 ^ (8 * (T.sizeOf - n)) = 256 * 2 ^ (8 * (T.sizeOf - (n + 1))) := by
      rw [show 8 * (T.sizeOf - n) = 8 + 8 * (T.sizeOf - (n + 1)) from by omega, Nat.pow_add]
    rw [h2, show T.sizeOf - 1 - n = T.sizeOf - (n + 1) from by omega]
    simp [valueBE]
    ring

/-! ## The stream: writing -/

theorem FStream.store_getElem?_self (d : List Byte) (p : Nat) (b : Byte) :
    (FStream.store d p b)[p]? = some b := by
  unfold FStream.store
  split_ifs with h
  · rw [List.getElem?_set_self h]
  · have hl : (d ++ List.replicate (p - d.length) (0 : Byte)).length = p := by
      rw [List.length_append, List.length_replicate]; omega
    rw [List.getElem?_append_right (by omega), hl, Nat.sub_self]
    rfl

theorem FStream.store_getElem?_lt (d : List Byte) (p : Nat) (b : Byte) (i : Nat) (hi : i < p)
    (hd : i < d.length) : (FStream.store d p b)[i]? = d[i]? := by
  unfold FStream.store
  split_ifs with h
  · rw [List.getElem?_set_ne (by omega)]
  · rw [List.append_assoc, List.getElem?_append_left hd]

theorem FStream.length_store (d : List Byte) (p : Nat) (b : Byte) :
    d.length ≤ (FStream.store d p b).length ∧ p < (FStream.store d p b).length := by
  unfold FStream.store
  split_ifs with h
  · simp; omega
  · simp; omega

theorem FStream.storeAll_getElem?_lt (bs : List Byte) (d : List Byte) (q i : Nat) (hi : i < q)
    (hd : i < d.length) : (FStream.storeAll d q bs)[i]? = d[i]? := by
  induction bs generalizing d q with
  | nil => rfl
  | cons b bs ih =>
    unfold FStream.storeAll
    have hl := FStream.length_store d q b
    rw [ih _ _ (by omega) (by omega), FStream.store_getElem?_lt d q b i hi hd]

theorem FStream.storeAll_getElem? (bs : List Byte) (d : List Byte) (p i : Nat)
    (hi : i < bs.length) : (FStream.storeAll d p bs)[p + i]? = bs[i]? := by
  induction bs generalizing d p i with
  | nil => simp at hi
  | cons b bs ih =>
    unfold FStream.storeAll
    have hl := FStream.length_store d p b
    cases i with
    | zero =>
      rw [FStream.storeAll_getElem?_lt _ _ _ _ (by omega) (by omega)]
      simpa using FStream.store_getElem?_self d p b
    | succ j =>
      have := ih (FStream.store d p b) (p + 1) j (by simpa using hi)
      rw [show p + (j + 1) = p + 1 + j from by omega, this, List.getElem?_cons_succ]

/-- The stored bytes are the ones found from `pos` on. -/
theorem FStream.storeAll_take_drop (bs : List Byte) (d : List Byte) (p : Nat) :
    ((FStream.storeAll d p bs).drop p).take bs.length = bs := by
  apply List.ext_getElem?
  intro i
  by_cases hi : i < bs.length
  · rw [List.getElem?_take_of_lt hi, List.getElem?_drop, FStream.storeAll_getElem? _ _ _ _ hi]
  · rw [List.getElem?_eq_none (by simp; omega), List.getElem?_eq_none (by omega)]

/-- On a good stream a sequence of `put`s stores its bytes from the position on
and advances the position by their number. -/
theorem FStream.putAll_good (cs : List Int) (s : FStream) (hg : s.good = true) :
    s.putAll cs = { s with data := FStream.storeAll s.data s.pos (cs.map Byte.ofInt),
                           pos := s.pos + cs.length } := by
  induction cs generalizing s with
  | nil => rfl
  | cons c cs ih =>
    unfold FStream.putAll at ih ⊢
    rw [List.foldl_cons]
    have hp : s.put c =
        { s with data := FStream.store s.data s.pos (Byte.ofInt c), pos := s.pos + 1 } := by
      unfold FStream.put
      simp only [hg, if_true]
    rw [hp, ih]
    · simp only [List.map_cons, FStream.storeAll, List.length_cons]
      congr 1
      omega
    · exact hg

/-- On a good stream, seeking from the beginning to an offset below `2 ^ 63`
sets the position to it. -/
theorem FStream.seekg_beg_good (s : FStream) (p : Nat) (hg : s.good = true)
    (hp : p < 2 ^ 63) : s.seekg p .beg = { s with pos := p } := by
  unfold FStream.good at hg
  simp only [Bool.and_eq_true, Bool.not_eq_true'] at hg
  obtain ⟨⟨h1, h2⟩, h3⟩ := hg
  unfold FStream.seekg FStream.fail sizeMod
  cases s with
  | mk data pos eofbit failbit badbit =>
    simp only at h1 h2 h3
    subst h1 h2 h3
    have h4 : p % 18446744073709551616 = p := Nat.mod_eq_of_lt (by omega)
    have h5 : p < 9223372036854775808 := by omega
    have h6 : (p : Int) % 18446744073709551616 = (p : Int) := by omega
    simp [h4, h5, h6]

theorem write_loop (f : Nat → Int) (l : List Nat) (self : IOF) :
    l.foldl (fun (s : IOF) i => { s with fst := s.fst.put (f i) }) self
      = { self with fst := self.fst.putAll (l.map f) } := by
  induction l generalizing self with
  | nil => rfl
  | cons i l ih =>
    rw [List.foldl_cons, ih]
    rfl

/-! ## Reading the bytes ahead -/

theorem read_ahead (T : IntType) (s : IOF) (bs : List Byte) (hlen : bs.length = T.sizeOf)
    (h : s.fst.Ahead bs) :
    (read T s).2 = { s with fst := { s.fst with pos := s.fst.pos + T.sizeOf } } := by
  rw [read_eq, h.getN T.sizeOf (by omega)]

theorem nthGet_ahead {f : FStream} {bs : List Byte} (h : f.Ahead bs) :
    ∀ i, i < bs.length → f.nthGet i = (((bs.getD i 0).val : Nat) : Int) := by
  intro i hi
  rw [h.nthGet i hi, List.getD_eq_getElem _ _ hi]

theorem read_ahead_little (T : IntType) (f : FStream) (bs : List Byte)
    (hlen : bs.length = T.sizeOf) (h : f.Ahead bs) :
    T.repr (read T ⟨f, .little_endian⟩).1 = valueLE bs := by
  rw [read_eq]
  show T.repr (accumulate T 1 f.nthGet T.sizeOf) = _
  rw [repr_accumulate_little T _ bs hlen (nthGet_ahead h) T.sizeOf (Nat.le_refl _),
    List.take_of_length_le (by omega)]

theorem read_ahead_big (T : IntType) (f : FStream) (bs : List Byte)
    (hlen : bs.length = T.sizeOf) (h : f.Ahead bs) :
    T.repr (read T ⟨f, .big_endian⟩).1 = valueBE bs := by
  rw [read_eq]
  show T.repr (accumulate T (-1) f.nthGet T.sizeOf) = _
  rw [repr_accumulate_big T _ bs hlen (nthGet_ahead h) T.sizeOf (Nat.le_refl _),
    List.take_of_length_le (by omega), Nat.sub_self]
  simp

theorem inRange_read (T : IntType) (s : IOF) : T.InRange (read T s).1 := by
  rw [read_eq]
  exact inRange_accumulate _ _ _ _

/-! ## The numbers of byte lists -/

theorem valueLE_eq_sum (bs : List Byte) :
    valueLE bs = ∑ i in Finset.range bs.length, (bs.getD i 0).val * 2 ^ (8 * i) := by
  induction bs with
  | nil => rfl
  | cons b bs ih =>
    rw [List.length_cons, Finset.sum_range_succ', valueLE, ih, Finset.mul_sum]
    simp only [List.getD_cons_succ, List.getD_cons_zero, Nat.mul_zero, Nat.pow_zero, Nat.mul_one]
    rw [Nat.add_comm]
    congr 1
    apply Finset.sum_congr rfl
    intro i _
    rw [Nat.mul_succ, Nat.pow_add]
    ring

theorem valueBE_eq_sum (bs : List Byte) :
    valueBE bs
      = ∑ i in Finset.range bs.length, (bs.getD i 0).val * 2 ^ (8 * (bs.length - 1 - i)) := by
  induction bs using List.reverseRecOn with
  | nil => rfl
  | append_singleton bs b ih =>
    rw [valueBE_append, ih, List.length_append, List.length_singleton, Finset.sum_range_succ,
      Finset.mul_sum]
    congr 1
    · apply Finset.sum_congr rfl
      intro i hi
      have hi2 : i < bs.length := Finset.mem_range.mp hi
      rw [List.getD_append _ _ _ _ hi2,
        show 8 * (bs.length + 1 - 1 - i) = 8 * 1 + 8 * (bs.length - 1 - i) from by omega,
        Nat.pow_add]
      ring
    · rw [List.getD_append_right _ _ _ _ (Nat.le_refl _)]
      simp [valueBE]

/-- Byte `i` of the little-endian number of `bs` is `bs[i]`. -/
theorem valueLE_byte (bs : List Byte) (i : Nat) (hi : i < bs.length) :
    valueLE bs / 2 ^ (8 * i) % 256 = (bs.getD i 0).val := by
  induction bs generalizing i with
  | nil => simp at hi
  | cons b bs ih =>
    have hb := b.isLt
    cases i with
    | zero =>
      simp only [valueLE, Nat.mul_zero, Nat.pow_zero, Nat.div_one, List.getD_cons_zero]
      omega
    | succ j =>
      have hj : j < bs.length := by simpa using hi
      rw [List.getD_cons_succ, ← ih j hj, Nat.mul_succ, Nat.add_comm, Nat.pow_add,
        ← Nat.div_div_eq_div_mul]
      simp only [valueLE]
      congr 2
      omega

theorem valueLE_injective (xs ys : List Byte) (hl : xs.length = ys.length)
    (h : valueLE xs = valueLE ys) : xs = ys := by
  induction xs generalizing ys with
  | nil =>
    cases ys with
    | nil => rfl
    | cons y ys => simp at hl
  | cons x xs ih =>
    cases ys with
    | nil => simp at hl
    | cons y ys =>
      have hx := x.isLt
      have hy := y.isLt
      simp only [valueLE] at h
      have h1 : x.val = y.val := by omega
      have h2 : valueLE xs = valueLE ys := by omega
      rw [Fin.ext h1, ih ys (by simpa using hl) h2]

theorem valueLE_bytesLE (p n : Nat) : valueLE (bytesLE p n) = p % 2 ^ (8 * n) := by
  induction n with
  | zero => simp [bytesLE, valueLE, Nat.mod_one]
  | succ n ih =>
    have hlen : (bytesLE p n).length = n := by simp [bytesLE]
    have hs : bytesLE p (n + 1) = bytesLE p n ++ [Byte.ofInt ((p / 2 ^ (8 * n) : Nat) : Int)] := by
      unfold bytesLE
      rw [List.range_succ, List.map_append]
      rfl
    rw [hs, valueLE_append, ih, hlen, Nat.mul_succ, Nat.pow_add, Nat.mod_mul]
    congr 2


/-! ## The loops of `write<T>` -/

theorem putArgLE_eq (T : IntType) (v : Int) (i : Nat) (hi : i < T.sizeOf) :
    putArgLE T v i = v / 2 ^ (8 * i) % 256 := by
  have hs := T.sizeOf_le
  unfold putArgLE
  rw [IntType.band_shr, show mulSize 8 i = 8 * i from by unfold mulSize sizeMod; omega]
  norm_cast

theorem putArgBE_eq (T : IntType) (v : Int) (i : Nat) (hi : i < T.sizeOf) :
    putArgBE T v (subSize T.sizeOf 1) i = v / 2 ^ (8 * (T.sizeOf - 1 - i)) % 256 := by
  have hs := T.sizeOf_le
  unfold putArgBE
  rw [IntType.band_shr, show mulSize 8 (subSize (subSize T.sizeOf 1) i) = 8 * (T.sizeOf - 1 - i)
    from by unfold mulSize subSize sizeMod; omega]
  norm_cast

theorem write_little (T : IntType) (v : Int) (f : FStream) :
    write T v ⟨f, .little_endian⟩
      = ⟨f.putAll ((List.range T.sizeOf).map (fun i => v / 2 ^ (8 * i) % 256)), .little_endian⟩ := by
  have h : (List.range T.sizeOf).map (putArgLE T v)
      = (List.range T.sizeOf).map (fun i => v / 2 ^ (8 * i) % 256) :=
    List.map_congr_left (fun i hi => putArgLE_eq T v i (List.mem_range.mp hi))
  show (List.range T.sizeOf).foldl _ _ = _
  rw [write_loop (putArgLE T v), h]

theorem write_big (T : IntType) (v : Int) (f : FStream) :
    write T v ⟨f, .big_endian⟩
      = ⟨f.putAll ((List.range T.sizeOf).map (fun i => v / 2 ^ (8 * (T.sizeOf - 1 - i)) % 256)),
          .big_endian⟩ := by
  have h : (List.range T.sizeOf).map (putArgBE T v (subSize T.sizeOf 1))
      = (List.range T.sizeOf).map (fun i => v / 2 ^ (8 * (T.sizeOf - 1 - i)) % 256) :=
    List.map_congr_left (fun i hi => putArgBE_eq T v i (List.mem_range.mp hi))
  show (List.range T.sizeOf).foldl _ _ = _
  rw [write_loop (putArgBE T v (subSize T.sizeOf 1)), h]

/-- The byte stored for `(value >> 8 i) & 0xFF` is byte `i` of the bit pattern. -/
theorem ofInt_byte (T : IntType) (v : Int) (i : Nat) (hi : i < T.sizeOf) :
    Byte.ofInt (v / 2 ^ (8 * i) % 256) = Byte.ofInt ((T.repr v / 2 ^ (8 * i) : Nat) : Int) := by
  have h := T.byte_repr v i hi
  rw [Nat.cast_pow, Nat.cast_ofNat] at h
  apply Fin.ext
  simp only [Byte.ofInt]
  generalize v / 2 ^ (8 * i) = x at h ⊢
  generalize T.repr v / 2 ^ (8 * i) = y at h ⊢
  omega

theorem stored_little (T : IntType) (v : Int) :
    ((List.range T.sizeOf).map (fun i => v / 2 ^ (8 * i) % 256)).map Byte.ofInt
      = bytesLE (T.repr v) T.sizeOf := by
  unfold bytesLE
  rw [List.map_map]
  exact List.map_congr_left (fun i hi => ofInt_byte T v i (List.mem_range.mp hi))

theorem map_range_reflect {α : Type} (g : Nat → α) (n : Nat) :
    (List.range n).map (fun i => g (n - 1 - i)) = ((List.range n).map g).reverse := by
  apply List.ext_getElem
  · simp
  · intro i h1 h2
    simp only [List.length_map, List.length_range] at h1
    simp [List.getElem_reverse]

theorem stored_big (T : IntType) (v : Int) :
    ((List.range T.sizeOf).map (fun i => v / 2 ^ (8 * (T.sizeOf - 1 - i)) % 256)).map Byte.ofInt
      = (bytesLE (T.repr v) T.sizeOf).reverse := by
  rw [← stored_little, List.map_map, ← List.map_reverse,
    ← map_range_reflect (fun i => v / 2 ^ (8 * i) % 256), List.map_map]

theorem length_bytesLE (p n : Nat) : (bytesLE p n).length = n := by simp [bytesLE]

theorem valueLE_bytesLE_repr (T : IntType) (v : Int) :
    valueLE (bytesLE (T.repr v) T.sizeOf) = T.repr v := by
  rw [valueLE_bytesLE, ← T.modulus_eq, Nat.mod_eq_of_lt (T.repr_lt v)]

/-- After the values `cs` are put on a good stream and the position is set back to
where it was, the stored bytes lie ahead. -/
theorem ahead_after_putAll (f : FStream) (cs : List Int) (hg : f.good = true)
    (hp : f.pos < 2 ^ 63) : ((f.putAll cs).seekg f.pos .beg).Ahead (cs.map Byte.ofInt) := by
  rw [FStream.putAll_good cs f hg, FStream.seekg_beg_good _ f.pos (by exact hg) hp]
  refine ⟨hg, ?_⟩
  exact FStream.storeAll_take_drop _ _ _


/-! ## Writing, then reading -/

theorem FStream.length_storeAll (bs : List Byte) (d : List Byte) (p : Nat) (hb : bs ≠ []) :
    (FStream.storeAll d p bs).length = max d.length (p + bs.length) := by
  induction bs generalizing d p with
  | nil => exact absurd rfl hb
  | cons b bs ih =>
    have hl : (FStream.store d p b).length = max d.length (p + 1) := by
      unfold FStream.store
      split_ifs with h
      · rw [List.length_set]; omega
      · simp; omega
    unfold FStream.storeAll
    cases bs with
    | nil => simp only [FStream.storeAll, hl, List.length_singleton]
    | cons b2 bs =>
      rw [ih _ _ (by simp), hl]
      simp only [List.length_cons]
      omega

theorem write_puts (T : IntType) (v : Int) (s : IOF) :
    ∃ cs : List Int, cs.length = T.sizeOf ∧ write T v s = { s with fst := s.fst.putAll cs } := by
  cases s with
  | mk f e =>
    cases e with
    | little_endian => exact ⟨_, by simp, write_little T v f⟩
    | big_endian => exact ⟨_, by simp, write_big T v f⟩

/-- The bytes that `write<T>(v)` stores, in stream order. -/
theorem write_stored (T : IntType) (e : Endianness) (v : Int) (f : FStream) :
    ∃ cs : List Int, write T v ⟨f, e⟩ = ⟨f.putAll cs, e⟩ ∧
      cs.map Byte.ofInt = (match e with
        | .little_endian => bytesLE (T.repr v) T.sizeOf
        | .big_endian => (bytesLE (T.repr v) T.sizeOf).reverse) := by
  cases e with
  | little_endian => exact ⟨_, write_little T v f, stored_little T v⟩
  | big_endian => exact ⟨_, write_big T v f, stored_big T v⟩

/-- Writing a value of `T` on a good stream, seeking back to where the write
started and reading gives the value back. -/
theorem read_seek_write (T : IntType) (e : Endianness) (v : Int) (f : FStream)
    (hv : T.InRange v) (hg : f.good = true) (hp : f.pos < 2 ^ 63) :
    (read T (seek f.pos .beg (write T v ⟨f, e⟩))).1 = v := by
  obtain ⟨cs, hw, hcs⟩ := write_stored T e v f
  rw [hw]
  have ha := ahead_after_putAll f cs hg hp
  apply T.eq_of_repr_eq _ _ (inRange_read T _) hv
  cases e with
  | little_endian =>
    simp only at hcs
    rw [hcs] at ha
    show T.repr (read T ⟨(f.putAll cs).seekg f.pos .beg, .little_endian⟩).1 = _
    rw [read_ahead_little T _ _ (length_bytesLE _ _) ha, valueLE_bytesLE_repr]
  | big_endian =>
    simp only at hcs
    rw [hcs] at ha
    show T.repr (read T ⟨(f.putAll cs).seekg f.pos .beg, .big_endian⟩).1 = _
    rw [read_ahead_big T _ _ (by rw [List.length_reverse, length_bytesLE]) ha,
      valueBE_eq_valueLE_reverse, List.reverse_reverse, valueLE_bytesLE_repr]

theorem write_endian (T : IntType) (v : Int) (s : IOF) : (write T v s).endian = s.endian := by
  obtain ⟨cs, _, hw⟩ := write_puts T v s
  rw [hw]

theorem eq_ofRepr_of_repr (T : IntType) (r : Int) (p : Nat) (hr : T.InRange r)
    (h : T.repr r = p) : r = T.ofRepr p := by
  rw [← h]
  exact (T.conv_of_inRange r hr).symm

theorem getD_reverse (bs : List Byte) (i : Nat) (hi : i < bs.length) :
    bs.reverse.getD (bs.length - 1 - i) 0 = bs.getD i 0 := by
  rw [List.getD_eq_getElem _ _ (by rw [List.length_reverse]; omega), List.getD_eq_getElem _ _ hi,
    List.getElem_reverse]
  congr 1
  omega

/-- Byte `k` of a value, `(v >> 8 k) & 0xFF`, is byte `k` of its bit pattern and
lies in `0..255`. -/
theorem byte_bounds (T : IntType) (v : Int) (k : Nat) (hk : k < T.sizeOf) :
    v / 2 ^ (8 * k) % 256 = ((T.repr v / 2 ^ (8 * k) % 256 : Nat) : Int) ∧
      0 ≤ v / 2 ^ (8 * k) % 256 ∧ v / 2 ^ (8 * k) % 256 ≤ 255 := by
  have h := T.byte_repr v k hk
  rw [Nat.cast_pow, Nat.cast_ofNat] at h
  generalize v / 2 ^ (8 * k) = x at h ⊢
  generalize T.repr v / 2 ^ (8 * k) = y at h ⊢
  omega

theorem read_ahead_repr (T : IntType) (e : Endianness) (f : FStream) (bs : List Byte)
    (hlen : bs.length = T.sizeOf) (h : f.Ahead bs) :
    T.repr (read T ⟨f, e⟩).1 = (match e with
      | .little_endian => valueLE bs
      | .big_endian => valueBE bs) := by
  cases e with
  | little_endian => exact read_ahead_little T f bs hlen h
  | big_endian => exact read_ahead_big T f bs hlen h

theorem inRange_natCast (T : IntType) (hT : T.isSigned = false) (v : Nat)
    (hv : v < T.modulus) : T.InRange (v : Int) := by
  unfold IntType.InRange
  simp only [hT, Bool.false_eq_true, if_false]
  omega

/-! ## The claims -/

/-- Claim C1. Integral round trip: for every integral type `T`, either byte order
and every value `v` of `T`, `write<T>(v)` on a good stream followed by a seek back
to the position where the write started and `read<T>` returns exactly `v`; the
byte order of the session is the same at the write and at the read. -/
theorem read_write_roundtrip (T : IntType) (e : Endianness) (v : Int) (f : FStream)
    (hv : T.InRange v) (hg : f.good = true) (hp : f.pos < 2 ^ 63) :
    (read T (seek f.pos .beg (write T v ⟨f, e⟩))).1 = v ∧
      (seek f.pos .beg (write T v ⟨f, e⟩)).endian = e :=
  ⟨read_seek_write T e v f hv hg hp, write_endian T v ⟨f, e⟩⟩

theorem read_write_roundtrip_witness :
    IntType.i16.InRange (-2) ∧ (session .big_endian [7, 9] 1).fst.good = true ∧
      (session .big_endian [7, 9] 1).fst.pos < 2 ^ 63 ∧
      (read .i16 (seek 1 .beg (write .i16 (-2) (session .big_endian [7, 9] 1)))).1 = -2 :=
  ⟨by decide, rfl, by decide,
    (read_write_roundtrip .i16 .big_endian (-2) (session .big_endian [7, 9] 1).fst
      (by decide) rfl (by decide)).1⟩

/-- Claim C2. Writing the 32-bit value `0x01020304` (signed or unsigned) hands the
stream the bytes `04 03 02 01` on a little-endian session and `01 02 03 04` on a
big-endian one; on a fresh file these are the file's contents. -/
theorem write_0x01020304 (f : FStream) :
    (write .i32 0x01020304 ⟨f, .little_endian⟩).fst = f.putAll [0x04, 0x03, 0x02, 0x01] ∧
    (write .u32 0x01020304 ⟨f, .little_endian⟩).fst = f.putAll [0x04, 0x03, 0x02, 0x01] ∧
    (write .i32 0x01020304 ⟨f, .big_endian⟩).fst = f.putAll [0x01, 0x02, 0x03, 0x04] ∧
    (write .u32 0x01020304 ⟨f, .big_endian⟩).fst = f.putAll [0x01, 0x02, 0x03, 0x04] ∧
    (write .i32 0x01020304 (session .little_endian [] 0)).fst.data = [0x04, 0x03, 0x02, 0x01] ∧
    (write .u32 0x01020304 (session .little_endian [] 0)).fst.data = [0x04, 0x03, 0x02, 0x01] ∧
    (write .i32 0x01020304 (session .big_endian [] 0)).fst.data = [0x01, 0x02, 0x03, 0x04] ∧
    (write .u32 0x01020304 (session .big_endian [] 0)).fst.data = [0x01, 0x02, 0x03, 0x04] := by
  refine ⟨?_, ?_, ?_, ?_, by decide, by decide, by decide, by decide⟩
  · rw [write_little]; rfl
  · rw [write_little]; rfl
  · rw [write_big]; rfl
  · rw [write_big]; rfl

/-- Claim C3. Little-endian decode: when the `sizeof(T)` bytes `bs` lie ahead,
`read<T>` on a little-endian session returns the value of `T` whose bit pattern is
the sum of `bs[i] * 2 ^ (8 i)`: byte `i` of the pattern is `bs[i]` and no bit from
`8 * sizeof(T)` on is set. -/
theorem read_little_endian (T : IntType) (f : FStream) (bs : List Byte)
    (hlen : bs.length = T.sizeOf) (h : f.Ahead bs) :
    T.InRange (read T ⟨f, .little_endian⟩).1 ∧
    T.repr (read T ⟨f, .little_endian⟩).1
      = ∑ i in Finset.range T.sizeOf, (bs.getD i 0).val * 2 ^ (8 * i) ∧
    (read T ⟨f, .little_endian⟩).1
      = T.ofRepr (∑ i in Finset.range T.sizeOf, (bs.getD i 0).val * 2 ^ (8 * i)) ∧
    (∀ i, i < T.sizeOf →
      T.repr (read T ⟨f, .little_endian⟩).1 / 2 ^ (8 * i) % 256 = (bs.getD i 0).val) ∧
    T.repr (read T ⟨f, .little_endian⟩).1 < 2 ^ (8 * T.sizeOf) := by
  have hr := read_ahead_little T f bs hlen h
  have hin := inRange_read T ⟨f, .little_endian⟩
  have hsum := valueLE_eq_sum bs
  rw [hlen] at hsum
  refine ⟨hin, by rw [hr, hsum], ?_, ?_, ?_⟩
  · exact eq_ofRepr_of_repr T _ _ hin (by rw [hr, hsum])
  · intro i hi
    rw [hr]
    exact valueLE_byte bs i (by omega)
  · rw [← T.modulus_eq]
    exact T.repr_lt _

theorem read_little_endian_witness :
    ([0xFE, 0xFF] : List Byte).length = IntType.i16.sizeOf ∧
    (session .little_endian [0x00, 0xFE, 0xFF] 1).fst.Ahead [0xFE, 0xFF] ∧
    (read .i16 (session .little_endian [0x00, 0xFE, 0xFF] 1)).1 = -2 ∧
    IntType.i16.repr (read .i16 (session .little_endian [0x00, 0xFE, 0xFF] 1)).1
      = 0xFE * 2 ^ 0 + 0xFF * 2 ^ 8 :=
  ⟨rfl, by decide,
    (read_little_endian .i16 (session .little_endian [0x00, 0xFE, 0xFF] 1).fst [0xFE, 0xFF]
      rfl (by decide)).2.2.1.trans (by decide),
    (read_little_endian .i16 (session .little_endian [0x00, 0xFE, 0xFF] 1).fst [0xFE, 0xFF]
      rfl (by decide)).2.1.trans (by decide)⟩

/-- Claim C4. Big-endian decode: when the `sizeof(T)` bytes `bs` lie ahead,
`read<T>` on a big-endian session returns the value of `T` whose bit pattern is
the sum of `bs[i] * 2 ^ (8 (sizeof(T) - 1 - i))`: byte `sizeof(T) - 1 - i` of the
pattern is `bs[i]` and no bit from `8 * sizeof(T)` on is set. -/
theorem read_big_endian (T : IntType) (f : FStream) (bs : List Byte)
    (hlen : bs.length = T.sizeOf) (h : f.Ahead bs) :
    T.InRange (read T ⟨f, .big_endian⟩).1 ∧
    T.repr (read T ⟨f, .big_endian⟩).1
      = ∑ i in Finset.range T.sizeOf, (bs.getD i 0).val * 2 ^ (8 * (T.sizeOf - 1 - i)) ∧
    (read T ⟨f, .big_endian⟩).1
      = T.ofRepr (∑ i in Finset.range T.sizeOf,
          (bs.getD i 0).val * 2 ^ (8 * (T.sizeOf - 1 - i))) ∧
    (∀ i, i < T.sizeOf →
      T.repr (read T ⟨f, .big_endian⟩).1 / 2 ^ (8 * (T.sizeOf - 1 - i)) % 256
        = (bs.getD i 0).val) ∧
    T.repr (read T ⟨f, .big_endian⟩).1 < 2 ^ (8 * T.sizeOf) := by
  have hr := read_ahead_big T f bs hlen h
  have hin := inRange_read T ⟨f, .big_endian⟩
  have hsum := valueBE_eq_sum bs
  rw [hlen] at hsum
  refine ⟨hin, by rw [hr, hsum], ?_, ?_, ?_⟩
  · exact eq_ofRepr_of_repr T _ _ hin (by rw [hr, hsum])
  · intro i hi
    rw [hr, valueBE_eq_valueLE_reverse, ← hlen,
      valueLE_byte bs.reverse (bs.length - 1 - i) (by rw [List.length_reverse]; omega),
      getD_reverse bs i (by omega)]
  · rw [← T.modulus_eq]
    exact T.repr_lt _

theorem read_big_endian_witness :
    ([0xFF, 0xFE] : List Byte).length = IntType.i16.sizeOf ∧
    (session .big_endian [0x00, 0xFF, 0xFE] 1).fst.Ahead [0xFF, 0xFE] ∧
    (read .i16 (session .big_endian [0x00, 0xFF, 0xFE] 1)).1 = -2 ∧
    IntType.i16.repr (read .i16 (session .big_endian [0x00, 0xFF, 0xFE] 1)).1
      = 0xFF * 2 ^ 8 + 0xFE * 2 ^ 0 :=
  ⟨rfl, by decide,
    (read_big_endian .i16 (session .big_endian [0x00, 0xFF, 0xFE] 1).fst [0xFF, 0xFE]
      rfl (by decide)).2.2.1.trans (by decide),
    (read_big_endian .i16 (session .big_endian [0x00, 0xFF, 0xFE] 1).fst [0xFF, 0xFE]
      rfl (by decide)).2.1.trans (by decide)⟩

/-- Claim C5. Little-endian encode: on a little-endian session `write<T>(v)` hands
the stream, for `i = 0, 1, .., sizeof(T) - 1` in this order, the byte
`(v >> 8 i) & 0xFF`, which is bits `[8i, 8i+7]` of the bit pattern of `v` and lies
in `0..255`. -/
theorem write_little_endian (T : IntType) (v : Int) (f : FStream) :
    write T v ⟨f, .little_endian⟩
      = ⟨f.putAll ((List.range T.sizeOf).map (fun i => v / 2 ^ (8 * i) % 256)),
          .little_endian⟩ ∧
    (∀ i, i < T.sizeOf →
      v / 2 ^ (8 * i) % 256 = ((T.repr v / 2 ^ (8 * i) % 256 : Nat) : Int) ∧
      0 ≤ v / 2 ^ (8 * i) % 256 ∧ v / 2 ^ (8 * i) % 256 ≤ 255) :=
  ⟨write_little T v f, fun i hi => byte_bounds T v i hi⟩

theorem write_little_endian_witness :
    1 < IntType.i16.sizeOf ∧
    (write .i16 (-2) (session .little_endian [] 0)).fst.data = [0xFE, 0xFF] ∧
    (-2 : Int) / 2 ^ (8 * 1) % 256 = ((0xFF : Nat) : Int) :=
  ⟨by decide,
    (congrArg (fun s : IOF => s.fst.data)
      (write_little_endian .i16 (-2) (session .little_endian [] 0).fst).1).trans (by decide),
    ((write_little_endian .i16 (-2) (session .little_endian [] 0).fst).2 1 (by decide)).1.trans
      (by decide)⟩

/-- Claim C6. Big-endian encode: on a big-endian session `write<T>(v)` hands the
stream, for `i = 0, 1, .., sizeof(T) - 1` in this order, the byte
`(v >> 8 (sizeof(T) - 1 - i)) & 0xFF`, which is bits
`[8 (sizeof(T) - 1 - i), 8 (sizeof(T) - 1 - i) + 7]` of the bit pattern of `v` and
lies in `0..255`: the most significant byte goes first. -/
theorem write_big_endian (T : IntType) (v : Int) (f : FStream) :
    write T v ⟨f, .big_endian⟩
      = ⟨f.putAll ((List.range T.sizeOf).map
            (fun i => v / 2 ^ (8 * (T.sizeOf - 1 - i)) % 256)), .big_endian⟩ ∧
    (∀ i, i < T.sizeOf →
      v / 2 ^ (8 * (T.sizeOf - 1 - i)) % 256
        = ((T.repr v / 2 ^ (8 * (T.sizeOf - 1 - i)) % 256 : Nat) : Int) ∧
      0 ≤ v / 2 ^ (8 * (T.sizeOf - 1 - i)) % 256 ∧
      v / 2 ^ (8 * (T.sizeOf - 1 - i)) % 256 ≤ 255) :=
  ⟨write_big T v f, fun i hi => byte_bounds T v (T.sizeOf - 1 - i) (by omega)⟩

theorem write_big_endian_witness :
    0 < IntType.i16.sizeOf ∧
    (write .i16 (-2) (session .big_endian [] 0)).fst.data = [0xFF, 0xFE] ∧
    (-2 : Int) / 2 ^ (8 * (IntType.i16.sizeOf - 1 - 0)) % 256 = ((0xFF : Nat) : Int) :=
  ⟨by decide,
    (congrArg (fun s : IOF => s.fst.data)
      (write_big_endian .i16 (-2) (session .big_endian [] 0).fst).1).trans (by decide),
    ((write_big_endian .i16 (-2) (session .big_endian [] 0).fst).2 0 (by decide)).1.trans
      (by decide)⟩

/-- Claim C7. Encode width: `write<T>(v)` is exactly `sizeof(T)` calls of `put`,
whatever the value and the byte order; on a good stream the position advances by
`sizeof(T)` and the file ends at the later of its old end and the new position,
so a write at the end of the file makes it `sizeof(T)` bytes longer. -/
theorem write_width (T : IntType) (v : Int) (s : IOF) :
    (∃ cs : List Int, cs.length = T.sizeOf ∧ (write T v s).fst = s.fst.putAll cs) ∧
    (s.fst.good = true →
      (write T v s).fst.pos = s.fst.pos + T.sizeOf ∧
      (write T v s).fst.data.length = max s.fst.data.length (s.fst.pos + T.sizeOf) ∧
      (write T v s).fst.good = true) := by
  obtain ⟨cs, hlen, hw⟩ := write_puts T v s
  refine ⟨⟨cs, hlen, by rw [hw]⟩, ?_⟩
  intro hg
  have hne : cs.map Byte.ofInt ≠ [] := by
    intro h
    have h2 := congrArg List.length h
    have h3 := T.sizeOf_pos
    rw [List.length_map, hlen, List.length_nil] at h2
    omega
  rw [hw]
  simp only [FStream.putAll_good cs s.fst hg, FStream.length_storeAll _ _ _ hne,
    List.length_map, hlen, true_and]
  exact hg

theorem write_width_witness :
    (session .big_endian [1, 2, 3] 2).fst.good = true ∧
    (write .u64 5 (session .big_endian [1, 2, 3] 2)).fst.pos = 2 + 8 ∧
    (write .u64 5 (session .big_endian [1, 2, 3] 2)).fst.data.length = 10 :=
  ⟨rfl, ((write_width .u64 5 (session .big_endian [1, 2, 3] 2)).2 rfl).1,
    ((write_width .u64 5 (session .big_endian [1, 2, 3] 2)).2 rfl).2.1⟩

/-- Claim C8. Decode width: `read<T>` is exactly `sizeof(T)` calls of `get`,
whatever the byte order; when `sizeof(T)` bytes lie ahead the position advances by
`sizeof(T)` and nothing else of the stream changes, and the value is the same on
every stream that has the same bytes ahead, whatever lies before or after them. -/
theorem read_width (T : IntType) (s : IOF) :
    (read T s).2 = { s with fst := s.fst.getN T.sizeOf } ∧
    (∀ bs : List Byte, bs.length = T.sizeOf → s.fst.Ahead bs →
      (read T s).2.fst = { s.fst with pos := s.fst.pos + T.sizeOf } ∧
      ∀ f : FStream, f.Ahead bs → (read T ⟨f, s.endian⟩).1 = (read T s).1) := by
  refine ⟨by rw [read_eq], ?_⟩
  intro bs hlen h
  refine ⟨by rw [read_ahead T s bs hlen h], ?_⟩
  intro f hf
  apply T.eq_of_repr_eq _ _ (inRange_read T _) (inRange_read T _)
  have h1 := read_ahead_repr T s.endian f bs hlen hf
  have h2 := read_ahead_repr T s.endian s.fst bs hlen h
  rw [h1]
  exact h2.symm

theorem read_width_witness :
    ([1, 2, 3, 4] : List Byte).length = IntType.u32.sizeOf ∧
    (session .big_endian [9, 1, 2, 3, 4, 7] 1).fst.Ahead [1, 2, 3, 4] ∧
    (session .big_endian [1, 2, 3, 4] 0).fst.Ahead [1, 2, 3, 4] ∧
    (read .u32 (session .big_endian [9, 1, 2, 3, 4, 7] 1)).2.fst.pos = 1 + 4 ∧
    (read .u32 (session .big_endian [1, 2, 3, 4] 0)).1
      = (read .u32 (session .big_endian [9, 1, 2, 3, 4, 7] 1)).1 :=
  ⟨rfl, by decide, by decide,
    congrArg FStream.pos ((read_width .u32 (session .big_endian [9, 1, 2, 3, 4, 7] 1)).2
      [1, 2, 3, 4] rfl (by decide)).1,
    ((read_width .u32 (session .big_endian [9, 1, 2, 3, 4, 7] 1)).2
      [1, 2, 3, 4] rfl (by decide)).2 (session .big_endian [1, 2, 3, 4] 0).fst (by decide)⟩

/-- The read side of the floating codec with the integral write called directly:
the bit pattern `v` of a 32-bit or 64-bit floating value, written with
`write<unsigned long int>` or `write<unsigned long long int>` on a good stream and
read back with `read<float>` or `read<double>` from the position where the write
started, comes back unchanged under either byte order. -/
theorem read_floating_after_integral_write (e : Endianness) (f : FStream)
    (hg : f.good = true) (hp : f.pos < 2 ^ 63) :
    (∀ v : Nat, v < 2 ^ 32 →
      (readFloat (seek f.pos .beg (write .u32 (v : Int) ⟨f, e⟩))).1 = v) ∧
    (∀ v : Nat, v < 2 ^ 64 →
      (readDouble (seek f.pos .beg (write .u64 (v : Int) ⟨f, e⟩))).1 = v) := by
  constructor
  · intro v hv
    have h := read_seek_write .u32 e (v : Int) f
      (inRange_natCast .u32 rfl v hv) hg hp
    show ((read .u32 (seek f.pos .beg (write .u32 (v : Int) ⟨f, e⟩))).1).toNat = v
    rw [h]
    rfl
  · intro v hv
    have h := read_seek_write .u64 e (v : Int) f
      (inRange_natCast .u64 rfl v hv) hg hp
    show ((read .u64 (seek f.pos .beg (write .u64 (v : Int) ⟨f, e⟩))).1).toNat = v
    rw [h]
    rfl

/-- Claim C9, where the code departs from it. The floating `write` overloads are
`const` members whose body calls `write(fbinary_repr)` with an unsigned integer. On
a `const` session the integral `write`, the only overload that takes an integer, is
not viable because it is not `const`, so the call selects no overload:
`write<float>(v)` and `write<double>(v)` give no session after, for every bit
pattern `v` and every session, and nothing is written that could be read back. On
a session that is not `const` the same call selects the integral `write`; the
floating reads are the unsigned reads of the same width. -/
theorem floating_write_not_viable :
    resolveWrite true (.integral .u32) = none ∧
    resolveWrite true (.integral .u64) = none ∧
    (∀ (v : Nat) (s : IOF), writeFloat v s = none) ∧
    (∀ (v : Nat) (s : IOF), writeDouble v s = none) ∧
    writeFloat 0x3F800000 (session .little_endian [] 0) = none ∧
    writeDouble 0x3FF0000000000000 (session .little_endian [] 0) = none ∧
    resolveWrite false (.integral .u32) = some .integral ∧
    resolveWrite false (.integral .u64) = some .integral ∧
    (∀ s : IOF, readFloat s = ((read .u32 s).1.toNat, (read .u32 s).2) ∧
      readDouble s = ((read .u64 s).1.toNat, (read .u64 s).2)) :=
  ⟨rfl, rfl, fun _ _ => rfl, fun _ _ => rfl, rfl, rfl, rfl, rfl, fun _ => ⟨rfl, rfl⟩⟩

/-- Claim C10. Per-session byte order: when the `sizeof(T)` bytes `bs` lie ahead,
a little-endian session and a big-endian session on the same stream read different
values if `bs` differs from its reversal, and the same value if `bs` equals its
reversal. -/
theorem read_byte_order (T : IntType) (f : FStream) (bs : List Byte)
    (hlen : bs.length = T.sizeOf) (h : f.Ahead bs) :
    (bs ≠ bs.reverse → (read T ⟨f, .little_endian⟩).1 ≠ (read T ⟨f, .big_endian⟩).1) ∧
    (bs = bs.reverse → (read T ⟨f, .little_endian⟩).1 = (read T ⟨f, .big_endian⟩).1) := by
  have hl := read_ahead_little T f bs hlen h
  have hb := read_ahead_big T f bs hlen h
  rw [valueBE_eq_valueLE_reverse] at hb
  constructor
  · intro hne heq
    apply hne
    apply valueLE_injective bs bs.reverse (by rw [List.length_reverse])
    rw [← hl, ← hb, heq]
  · intro hsym
    apply T.eq_of_repr_eq _ _ (inRange_read T _) (inRange_read T _)
    rw [hl, hb, ← hsym]

theorem read_byte_order_witness :
    ([0x01, 0x02, 0x03, 0x04] : List Byte).length = IntType.u32.sizeOf ∧
    (session .little_endian [0x01, 0x02, 0x03, 0x04] 0).fst.Ahead [0x01, 0x02, 0x03, 0x04] ∧
    ([0x01, 0x02, 0x03, 0x04] : List Byte) ≠ [0x01, 0x02, 0x03, 0x04].reverse ∧
    (read .u32 (session .little_endian [0x01, 0x02, 0x03, 0x04] 0)).1
      ≠ (read .u32 (session .big_endian [0x01, 0x02, 0x03, 0x04] 0)).1 ∧
    (read .u32 (session .little_endian [0x01, 0x02, 0x03, 0x04] 0)).1 = 0x04030201 ∧
    (read .u32 (session .big_endian [0x01, 0x02, 0x03, 0x04] 0)).1 = 0x01020304 ∧
    (read .i32 (session .little_endian [0x01, 0x02, 0x03, 0x04] 0)).1 = 0x04030201 ∧
    (read .i32 (session .big_endian [0x01, 0x02, 0x03, 0x04] 0)).1 = 0x01020304 :=
  ⟨rfl, by decide, by decide,
    (read_byte_order .u32 (session .little_endian [0x01, 0x02, 0x03, 0x04] 0).fst
      [0x01, 0x02, 0x03, 0x04] rfl (by decide)).1 (by decide),
    by decide, by decide, by decide, by decide⟩

/-! ## The constructor -/

/-- The test `flags & Flags::big_endian` reads bit 5 of the bit pattern. -/
theorem Flags.operatorAnd_big_endian (flags : Flags) :
    flags.operatorAnd Flags.big_endian = (IntType.i32.repr flags.val).testBit 5 := by
  unfold Flags.operatorAnd Flags.big_endian IntType.band
  have h32 : IntType.i32.repr 32 = 2 ^ 5 := by decide
  rw [h32, Nat.and_two_pow]
  have hm : IntType.i32.modulus = 4294967296 := by decide
  cases hb : (IntType.i32.repr flags.val).testBit 5 <;>
    simp [IntType.ofRepr, hm]

theorem Flags.operatorAnd_operatorOr (a b : Flags) :
    (a.operatorOr b).operatorAnd Flags.big_endian
      = (a.operatorAnd Flags.big_endian || b.operatorAnd Flags.big_endian) := by
  rw [Flags.operatorAnd_big_endian, Flags.operatorAnd_big_endian, Flags.operatorAnd_big_endian]
  unfold Flags.operatorOr
  rw [show IntType.i32.repr (IntType.i32.bor a.val b.val)
      = IntType.i32.repr a.val ||| IntType.i32.repr b.val from IntType.repr_bor .i32 a.val b.val,
    Nat.testBit_or]

theorem Flags.operatorAnd_combine (first : Flags) (rest : List Flags) :
    (Flags.combine first rest).operatorAnd Flags.big_endian
      = (first :: rest).any (fun f => f.operatorAnd Flags.big_endian) := by
  induction rest generalizing first with
  | nil => simp [Flags.combine]
  | cons g rest ih =>
    have h := ih (first.operatorOr g)
    unfold Flags.combine at h ⊢
    rw [List.foldl_cons, h]
    simp only [List.any_cons, Flags.operatorAnd_operatorOr, Bool.or_assoc]

theorem Flags.operatorAnd_enumerator (f : Flags) (hf : f ∈ Flags.enumerators) :
    f.operatorAnd Flags.big_endian = decide (f = Flags.big_endian) := by
  simp only [Flags.enumerators, List.mem_cons, List.mem_singleton, List.not_mem_nil,
    or_false] at hf
  rcases hf with h | h | h | h | h | h <;> subst h <;> decide

/-- The session that the constructor returns has the byte order that the test
`flags & Flags::big_endian` selects. -/
theorem construct_endian (fs : FileSystem) (filename : String) (flags : Flags) (s : IOF)
    (h : construct fs filename flags = .ok s) :
    s.endian = if flags.operatorAnd Flags.big_endian then .big_endian else .little_endian := by
  unfold construct at h
  simp only at h
  split at h
  · cases h
  · cases h
    rfl

theorem construct_ok_iff (fs : FileSystem) (filename : String) (flags : Flags) :
    (∃ s, construct fs filename flags = .ok s)
      ↔ (FStream.open fs filename (openMode flags)).fail = false := by
  unfold construct
  simp only
  cases hf : (FStream.open fs filename (openMode flags)).fail <;> simp

theorem open_fail_iff (fs : FileSystem) (filename : String) (mode : OpenMode) :
    (FStream.open fs filename mode).fail = true ↔ fs filename mode = none := by
  unfold FStream.open
  cases h : fs filename mode with
  | none => simp [FStream.fail]
  | some x => simp [FStream.fail]

theorem Op.run_endian (op : Op) (s : IOF) : (op.run s).endian = s.endian := by
  cases op with
  | readInt T => show (read T s).2.endian = _; rw [read_eq]
  | readFloat => show (read .u32 s).2.endian = _; rw [read_eq]
  | readDouble => show (read .u64 s).2.endian = _; rw [read_eq]
  | writeInt T v => exact write_endian T v s
  | writeFloat v => exact write_endian .u32 _ s
  | writeDouble v => exact write_endian .u64 _ s
  | readBuf n => rfl
  | writeBuf src n => rfl
  | writeString line => rfl
  | tell => rfl
  | seek pos ref => rfl
  | flush => rfl
  | is_fail => rfl
  | is_eof => rfl
  | is_good => rfl
  | is_bad => rfl

theorem runAll_endian (ops : List Op) (s : IOF) : (runAll ops s).endian = s.endian := by
  induction ops generalizing s with
  | nil => rfl
  | cons op ops ih =>
    unfold runAll at ih ⊢
    rw [List.foldl_cons, ih, Op.run_endian]


/-! ## Claims on the constructor and the byte order field -/

/-- Claim C11. Byte order selection at open: a session that the constructor returns
for the combination `first | f_1 | .. | f_n` is big-endian exactly when one of the
combined values has the `big_endian` bit (32), and little-endian otherwise; for a
combination of enumerators that is exactly when `big_endian` is one of them; and
or-ing `in`, `out`, `bin`, `ate` or `app` into the flags never changes the byte
order. -/
theorem byte_order_at_open (fs : FileSystem) (filename : String) (first : Flags)
    (rest : List Flags) (s : IOF)
    (h : construct fs filename (Flags.combine first rest) = .ok s) :
    (s.endian = .big_endian
      ↔ ∃ f ∈ first :: rest, f.operatorAnd Flags.big_endian = true) ∧
    (s.endian = .little_endian
      ↔ ∀ f ∈ first :: rest, f.operatorAnd Flags.big_endian = false) ∧
    ((∀ f ∈ first :: rest, f ∈ Flags.enumerators) →
      (s.endian = .big_endian ↔ Flags.big_endian ∈ first :: rest) ∧
      (s.endian = .little_endian ↔ Flags.big_endian ∉ first :: rest)) ∧
    (∀ g ∈ [Flags.«in», Flags.out, Flags.bin, Flags.ate, Flags.app],
      ∀ (fs2 : FileSystem) (filename2 : String) (s2 : IOF),
        construct fs2 filename2 ((Flags.combine first rest).operatorOr g) = .ok s2 →
        s2.endian = s.endian) := by
  have he := construct_endian fs filename _ s h
  rw [Flags.operatorAnd_combine] at he
  have hbig : s.endian = .big_endian
      ↔ ∃ f ∈ first :: rest, f.operatorAnd Flags.big_endian = true := by
    rw [he, ← List.any_eq_true]
    cases (first :: rest).any (fun f => f.operatorAnd Flags.big_endian) <;> simp
  have hlittle : s.endian = .little_endian
      ↔ ∀ f ∈ first :: rest, f.operatorAnd Flags.big_endian = false := by
    have hany : (first :: rest).any (fun f => f.operatorAnd Flags.big_endian) = false
        ↔ ∀ f ∈ first :: rest, f.operatorAnd Flags.big_endian = false := by
      rw [List.any_eq_false]
      simp only [Bool.not_eq_true]
    rw [he, ← hany]
    cases (first :: rest).any (fun f => f.operatorAnd Flags.big_endian) <;> simp
  refine ⟨hbig, hlittle, ?_, ?_⟩
  · intro henum
    constructor
    · rw [hbig]
      constructor
      · rintro ⟨f, hf, hb⟩
        rw [Flags.operatorAnd_enumerator f (henum f hf)] at hb
        rw [← of_decide_eq_true hb]
        exact hf
      · intro hmem
        exact ⟨Flags.big_endian, hmem, by decide⟩
    · rw [hlittle]
      constructor
      · intro hall hmem
        have := hall Flags.big_endian hmem
        revert this
        decide
      · intro hnot f hf
        rw [Flags.operatorAnd_enumerator f (henum f hf)]
        apply decide_eq_false
        intro hfb
        exact hnot (hfb ▸ hf)
  · intro g hg fs2 filename2 s2 h2
    have he2 := construct_endian fs2 filename2 _ s2 h2
    rw [Flags.operatorAnd_operatorOr, Flags.operatorAnd_combine] at he2
    have hgz : g.operatorAnd Flags.big_endian = false := by
      simp only [List.mem_cons, List.mem_singleton, List.not_mem_nil, or_false] at hg
      rcases hg with h | h | h | h | h <;> subst h <;> decide
    rw [hgz, Bool.or_false] at he2
    rw [he, he2]

theorem byte_order_at_open_witness :
    construct oneFile "data.bin" (Flags.combine Flags.«in» [Flags.bin, Flags.big_endian])
      = .ok (session .big_endian [1, 2, 3, 4] 0) ∧
    ((session .big_endian [1, 2, 3, 4] 0).endian = .big_endian
      ↔ Flags.big_endian ∈ [Flags.«in», Flags.bin, Flags.big_endian]) :=
  ⟨rfl,
    ((byte_order_at_open oneFile "data.bin" Flags.«in» [Flags.bin, Flags.big_endian]
      (session .big_endian [1, 2, 3, 4] 0) rfl).2.2.1 (by decide)).1⟩

/-- Claim C12. The byte order is immutable after construction: every call of a
member function on a session (integral and floating read and write, the raw read
and the raw writes, tell, seek, flush, the four status queries) leaves the field
`endian` as it is, so after any sequence of calls a session still has the byte
order that the constructor set from its flags. -/
theorem byte_order_invariant (ops : List Op) (s : IOF) :
    (∀ op : Op, (op.run s).endian = s.endian) ∧
    (runAll ops s).endian = s.endian ∧
    (∀ (fs : FileSystem) (filename : String) (flags : Flags),
      construct fs filename flags = .ok s →
      (runAll ops s).endian
        = if flags.operatorAnd Flags.big_endian then .big_endian else .little_endian) := by
  refine ⟨fun op => Op.run_endian op s, runAll_endian ops s, ?_⟩
  intro fs filename flags h
  rw [runAll_endian, construct_endian fs filename flags s h]

theorem byte_order_invariant_witness :
    construct oneFile "data.bin" (Flags.combine Flags.«in» [Flags.out, Flags.big_endian])
      = .ok (session .big_endian [1, 2, 3, 4] 0) ∧
    (runAll [.readInt .i16, .writeInt .u32 7, .readBuf 5, .tell, .seek 1 .beg, .readDouble,
        .flush, .writeString [65, 66], .is_eof]
      (session .big_endian [1, 2, 3, 4] 0)).endian = .big_endian :=
  ⟨rfl,
    (byte_order_invariant
      [.readInt .i16, .writeInt .u32 7, .readBuf 5, .tell, .seek 1 .beg, .readDouble,
        .flush, .writeString [65, 66], .is_eof]
      (session .big_endian [1, 2, 3, 4] 0)).2.2 oneFile "data.bin"
      (Flags.combine Flags.«in» [Flags.out, Flags.big_endian]) rfl⟩

/-- Claim C13. Open failure: the constructor throws `IOF::Exception` exactly when
the stream reports `fail()` after the open attempt, which is when the file cannot
be opened; the message is `"[IOF]: error -> could not open file: "` followed by the
file name, and no session is returned then; when the open succeeds a session is
returned and nothing is thrown. -/
theorem open_failure (fs : FileSystem) (filename : String) (flags : Flags) :
    (construct fs filename flags = .error ⟨"[IOF]: error -> could not open file: " ++ filename⟩
      ↔ (FStream.open fs filename (openMode flags)).fail = true) ∧
    ((∃ e, construct fs filename flags = .error e)
      ↔ (FStream.open fs filename (openMode flags)).fail = true) ∧
    ((∃ s, construct fs filename flags = .ok s)
      ↔ (FStream.open fs filename (openMode flags)).fail = false) ∧
    (∀ e, construct fs filename flags = .error e →
      e.what = "[IOF]: error -> could not open file: " ++ filename ∧
      ∀ s, construct fs filename flags ≠ .ok s) ∧
    ((FStream.open fs filename (openMode flags)).fail = true
      ↔ fs filename (openMode flags) = none) := by
  refine ⟨?_, ?_, construct_ok_iff fs filename flags, ?_, open_fail_iff fs filename _⟩
  · unfold construct
    simp only
    cases hf : (FStream.open fs filename (openMode flags)).fail <;> simp
  · unfold construct
    simp only
    cases hf : (FStream.open fs filename (openMode flags)).fail <;> simp
  · intro e he
    unfold construct at he ⊢
    simp only at he ⊢
    cases hf : (FStream.open fs filename (openMode flags)).fail
    · simp [hf] at he
    · simp only [hf, if_true] at he ⊢
      cases he
      exact ⟨rfl, fun s hs => by cases hs⟩

theorem open_failure_witness :
    (FStream.open oneFile "missing.bin" (openMode Flags.«in»)).fail = true ∧
    construct oneFile "missing.bin" Flags.«in»
      = .error ⟨"[IOF]: error -> could not open file: missing.bin"⟩ ∧
    (FStream.open oneFile "data.bin" (openMode Flags.«in»)).fail = false ∧
    ∃ s, construct oneFile "data.bin" Flags.«in» = .ok s :=
  ⟨rfl, (open_failure oneFile "missing.bin" Flags.«in»).1.2 rfl, rfl,
    (open_failure oneFile "data.bin" Flags.«in»).2.2.1.2 rfl⟩

/-! ## Reading past the end of the file -/

theorem FStream.get_eq_not_good (s : FStream) (h : s.good = false) :
    FStream.get s = (-1, { s with failbit := true }) := by
  unfold FStream.get
  simp only [h, Bool.false_eq_true, if_false]

theorem FStream.get_not_good (s : FStream) (h : s.good = false) :
    (FStream.get s).1 = -1 ∧ (FStream.get s).2.good = false ∧
      (FStream.get s).2.failbit = true := by
  rw [FStream.get_eq_not_good s h]
  refine ⟨rfl, ?_, rfl⟩
  simp [FStream.good]

theorem FStream.getN_not_good (s : FStream) (h : s.good = false) (n : Nat) :
    (s.getN n).good = false := by
  induction n with
  | zero => exact h
  | succ n ih =>
    rw [FStream.getN_succ]
    exact (FStream.get_not_good _ ih).2.1

/-- At the end of the data `get` returns the sentinel `-1` and sets `eofbit` and
`failbit`. -/
theorem FStream.get_at_end (s : FStream) (hg : s.good = true) (he : s.data.length ≤ s.pos) :
    FStream.get s = (-1, { s with eofbit := true, failbit := true }) := by
  unfold FStream.get
  rw [List.getElem?_eq_none he]
  simp only [hg, if_true]

/-- When exactly the bytes `bs` are left, every call of `get` after them returns
the sentinel `-1`. -/
theorem nthGet_past_end (f : FStream) (bs : List Byte) (h : f.Ahead bs)
    (hend : f.pos + bs.length = f.data.length) (i : Nat) (hi : bs.length ≤ i) :
    f.nthGet i = -1 ∧ (f.getN (i + 1)).good = false ∧ (f.getN (i + 1)).eofbit = true ∧
      (f.getN (i + 1)).failbit = true := by
  have hk := h.getN bs.length (Nat.le_refl _)
  have hgk : ({ f with pos := f.pos + bs.length } : FStream).good = true := h.1
  have h1 : FStream.get (f.getN bs.length)
      = (-1, { f with pos := f.pos + bs.length, eofbit := true, failbit := true }) := by
    rw [hk, FStream.get_at_end _ hgk (by simp; omega)]
  have hbad : ∀ j, (f.getN (bs.length + 1 + j)).good = false ∧
      (f.getN (bs.length + 1 + j)).eofbit = true ∧
      (f.getN (bs.length + 1 + j)).failbit = true := by
    intro j
    induction j with
    | zero =>
      rw [Nat.add_zero, FStream.getN_succ, h1]
      exact ⟨rfl, rfl, rfl⟩
    | succ j ih =>
      rw [← Nat.add_assoc, FStream.getN_succ]
      have hg := FStream.get_not_good _ ih.1
      refine ⟨hg.2.1, ?_, hg.2.2⟩
      rw [FStream.get_eq_not_good _ ih.1]
      exact ih.2.1
  obtain ⟨d, rfl⟩ := Nat.exists_eq_add_of_le hi
  refine ⟨?_, ?_⟩
  · unfold FStream.nthGet
    cases d with
    | zero => rw [Nat.add_zero, h1]
    | succ d =>
      have := (hbad d).1
      rw [show bs.length + (d + 1) = bs.length + 1 + d from by omega]
      exact (FStream.get_not_good _ this).1
  · have := hbad d
    rw [show bs.length + d + 1 = bs.length + 1 + d from by omega]
    exact this


theorem accumulate_congr (T : IntType) (id : Int) (c d : Nat → Int) (n : Nat)
    (h : ∀ i, i < n → c i = d i) : accumulate T id c n = accumulate T id d n := by
  induction n with
  | zero => rfl
  | succ n ih =>
    rw [accumulate_succ, accumulate_succ, ih (fun i hi => h i (by omega)), h n (by omega)]

theorem IntType.repr_neg_one (T : IntType) : T.repr (-1) = 2 ^ (8 * T.sizeOf) - 1 := by
  cases T <;> decide

/-- The bit pattern that a sentinel contributes when shifted by `s`: the bits from
`s` up to the width. -/
theorem testBit_ones_shift (n s j : Nat) :
    (((2 ^ n - 1) <<< s) % 2 ^ n).testBit j = (decide (s ≤ j) && decide (j < n)) := by
  rw [Nat.testBit_mod_two_pow, Nat.testBit_shiftLeft, Nat.testBit_two_pow_sub_one]
  rw [Bool.eq_iff_iff]
  simp only [Bool.and_eq_true, decide_eq_true_eq]
  omega

theorem ones_shift_eq (n s : Nat) (hs : s ≤ n) :
    ((2 ^ n - 1) <<< s) % 2 ^ n = 2 ^ s * (2 ^ (n - s) - 1) := by
  apply Nat.eq_of_testBit_eq
  intro j
  rw [testBit_ones_shift, Nat.testBit_mul_pow_two, Nat.testBit_two_pow_sub_one]
  rw [Bool.eq_iff_iff]
  simp only [Bool.and_eq_true, decide_eq_true_eq]
  omega

theorem ones_shift_absorb (n s t : Nat) (hst : s ≤ t) :
    ((2 ^ n - 1) <<< s) % 2 ^ n ||| ((2 ^ n - 1) <<< t) % 2 ^ n
      = ((2 ^ n - 1) <<< s) % 2 ^ n := by
  apply Nat.eq_of_testBit_eq
  intro j
  rw [Nat.testBit_or, testBit_ones_shift, testBit_ones_shift]
  rw [Bool.eq_iff_iff]
  simp only [Bool.or_eq_true, Bool.and_eq_true, decide_eq_true_eq]
  omega

theorem lor_all_ones (x n : Nat) (hx : x < 2 ^ n) : x ||| (2 ^ n - 1) = 2 ^ n - 1 := by
  apply Nat.eq_of_testBit_eq
  intro j
  rw [Nat.testBit_or, Nat.testBit_two_pow_sub_one]
  by_cases hj : j < n
  · simp [hj]
  · have : x < 2 ^ j := Nat.lt_of_lt_of_le hx (Nat.pow_le_pow_right (by decide) (by omega))
    simp [hj, Nat.testBit_lt_two_pow this]

/-- The accumulation over a sentinel: the shifted all-ones pattern is or-ed in. -/
theorem repr_accumulate_sentinel (T : IntType) (id : Int) (c : Nat → Int) (n : Nat)
    (hc : c n = -1) :
    T.repr (accumulate T id c (n + 1)) = T.repr (accumulate T id c n) |||
      ((2 ^ (8 * T.sizeOf) - 1) <<< readShift id n T.sizeOf) % 2 ^ (8 * T.sizeOf) := by
  rw [repr_accumulate_succ, hc, T.repr_neg_one, T.modulus_eq]

/-- Little-endian accumulation of a prefix `bs` of the bytes. -/
theorem repr_accumulate_prefix (T : IntType) (c : Nat → Int) (bs : List Byte)
    (hk : bs.length ≤ T.sizeOf)
    (hc : ∀ i, i < bs.length → c i = (((bs.getD i 0).val : Nat) : Int)) :
    T.repr (accumulate T 1 c bs.length) = valueLE bs := by
  have hlen : (bs ++ List.replicate (T.sizeOf - bs.length) (0 : Byte)).length = T.sizeOf := by
    rw [List.length_append, List.length_replicate]; omega
  rw [accumulate_congr T 1 c
    (fun i => ((((bs ++ List.replicate (T.sizeOf - bs.length) (0 : Byte)).getD i 0).val : Nat) : Int))
    bs.length (fun i hi => by
      show c i = _
      rw [hc i hi]
      show _ = ((((bs ++ List.replicate (T.sizeOf - bs.length) (0 : Byte)).getD i 0).val : Nat) : Int)
      rw [List.getD_append _ _ _ _ hi]),
    repr_accumulate_little T _ _ hlen (fun _ _ => rfl) bs.length hk, List.take_left']
  rfl

/-- Little-endian short read: after the `k` bytes that are left, the pattern has
all bits from `8 k` up. -/
theorem repr_accumulate_short_little (T : IntType) (c : Nat → Int) (bs : List Byte)
    (hc : ∀ i, i < bs.length → c i = (((bs.getD i 0).val : Nat) : Int))
    (hs : ∀ i, bs.length ≤ i → c i = -1) (n : Nat) (hn : bs.length < n) (hn2 : n ≤ T.sizeOf) :
    T.repr (accumulate T 1 c n)
      = valueLE bs ||| ((2 ^ (8 * T.sizeOf) - 1) <<< (8 * bs.length)) % 2 ^ (8 * T.sizeOf) := by
  induction n with
  | zero => omega
  | succ n ih =>
    rw [repr_accumulate_sentinel T 1 c n (hs n (by omega)),
      readShift_little n T.sizeOf (by omega) T.sizeOf_le]
    by_cases hnk : bs.length = n
    · rw [← hnk, repr_accumulate_prefix T c bs (by omega) hc]
    · rw [ih (by omega) (by omega), Nat.lor_assoc, ones_shift_absorb _ _ _ (by omega)]


theorem valueLE_replicate_ones (n : Nat) :
    valueLE (List.replicate n (255 : Byte)) = 2 ^ (8 * n) - 1 := by
  induction n with
  | zero => rfl
  | succ n ih =>
    have hp : 0 < 2 ^ (8 * n) := Nat.pos_pow_of_pos _ (by decide)
    have h2 : 2 ^ (8 * (n + 1)) = 256 * 2 ^ (8 * n) := by
      rw [Nat.mul_succ, Nat.pow_add]; ring
    rw [List.replicate_succ, valueLE, ih, h2]
    show 255 + 256 * (2 ^ (8 * n) - 1) = _
    omega

theorem ofRepr_all_ones (T : IntType) :
    T.ofRepr (2 ^ (8 * T.sizeOf) - 1) = if T.isSigned then -1 else (2 : Int) ^ (8 * T.sizeOf) - 1 := by
  cases T <;> decide

/-- The bit pattern of a little-endian short read in closed forms. -/
theorem short_little_forms (T : IntType) (bs : List Byte) (hk : bs.length < T.sizeOf) :
    valueLE bs ||| ((2 ^ (8 * T.sizeOf) - 1) <<< (8 * bs.length)) % 2 ^ (8 * T.sizeOf)
      = valueLE (bs ++ List.replicate (T.sizeOf - bs.length) (255 : Byte)) ∧
    valueLE (bs ++ List.replicate (T.sizeOf - bs.length) (255 : Byte))
      = valueLE bs + (2 ^ (8 * T.sizeOf) - 2 ^ (8 * bs.length)) := by
  have h1 : 8 * (T.sizeOf - bs.length) = 8 * T.sizeOf - 8 * bs.length := by omega
  constructor
  · rw [ones_shift_eq _ _ (by omega), Nat.lor_comm, ← Nat.mul_add_lt_is_or (valueLE_lt bs),
      valueLE_append, valueLE_replicate_ones, h1, Nat.add_comm]
  · rw [valueLE_append, valueLE_replicate_ones, Nat.mul_sub_one, ← Nat.pow_add, h1,
      show 8 * bs.length + (8 * T.sizeOf - 8 * bs.length) = 8 * T.sizeOf from by omega]

/-- Claim C14. Short read: when only the `k < sizeof(T)` bytes `bs` are left, every
further call of `get` in `read<T>` returns the sentinel `-1`, whose cast to `T` is
the all-ones pattern, shifted to the byte's position and or-ed into the value; no
error is raised, the stream only gets `eofbit` and `failbit`. On a little-endian
session the result has `bs` in its low `k` bytes and every bit from `8 k` up set
(the pattern of `bs` followed by bytes `0xFF`); on a big-endian session the result
is the all-ones value, `-1` for a signed and `2 ^ (8 sizeof(T)) - 1` for an unsigned
type, whatever the bytes `bs` are. -/
theorem short_read (T : IntType) (f : FStream) (bs : List Byte) (h : f.Ahead bs)
    (hend : f.pos + bs.length = f.data.length) (hk : bs.length < T.sizeOf) :
    (∀ (e : Endianness) (i : Nat), bs.length ≤ i → i < T.sizeOf →
      f.nthGet i = -1 ∧ T.repr (T.conv (-1)) = 2 ^ (8 * T.sizeOf) - 1 ∧
      T.repr (accumulate T e.toInt f.nthGet (i + 1))
        = T.repr (accumulate T e.toInt f.nthGet i) |||
          ((2 ^ (8 * T.sizeOf) - 1) <<< readShift e.toInt i T.sizeOf) % 2 ^ (8 * T.sizeOf)) ∧
    T.repr (read T ⟨f, .little_endian⟩).1
      = valueLE (bs ++ List.replicate (T.sizeOf - bs.length) (255 : Byte)) ∧
    T.repr (read T ⟨f, .little_endian⟩).1
      = valueLE bs + (2 ^ (8 * T.sizeOf) - 2 ^ (8 * bs.length)) ∧
    (∀ i, i < bs.length →
      T.repr (read T ⟨f, .little_endian⟩).1 / 2 ^ (8 * i) % 256 = (bs.getD i 0).val) ∧
    (∀ j, 8 * bs.length ≤ j → j < 8 * T.sizeOf →
      (T.repr (read T ⟨f, .little_endian⟩).1).testBit j = true) ∧
    T.repr (read T ⟨f, .big_endian⟩).1 = 2 ^ (8 * T.sizeOf) - 1 ∧
    (read T ⟨f, .big_endian⟩).1 = (if T.isSigned then -1 else (2 : Int) ^ (8 * T.sizeOf) - 1) ∧
    (∀ e : Endianness, (read T ⟨f, e⟩).2.fst.eofbit = true ∧
      (read T ⟨f, e⟩).2.fst.failbit = true ∧ (read T ⟨f, e⟩).2.endian = e) := by
  have hs : ∀ i, bs.length ≤ i → f.nthGet i = -1 :=
    fun i hi => (nthGet_past_end f bs h hend i hi).1
  have hle : T.repr (read T ⟨f, .little_endian⟩).1
      = valueLE bs ||| ((2 ^ (8 * T.sizeOf) - 1) <<< (8 * bs.length)) % 2 ^ (8 * T.sizeOf) := by
    rw [read_eq]
    exact repr_accumulate_short_little T _ bs (nthGet_ahead h) hs T.sizeOf hk (Nat.le_refl _)
  have hforms := short_little_forms T bs hk
  have hbe : T.repr (read T ⟨f, .big_endian⟩).1 = 2 ^ (8 * T.sizeOf) - 1 := by
    rw [read_eq]
    show T.repr (accumulate T (-1) f.nthGet T.sizeOf) = _
    obtain ⟨n, hn⟩ : ∃ n, T.sizeOf = n + 1 := ⟨T.sizeOf - 1, by have := T.sizeOf_pos; omega⟩
    have hlt := T.repr_lt (accumulate T (-1) f.nthGet n)
    rw [T.modulus_eq] at hlt
    rw [hn] at hlt ⊢
    rw [← hn, hn, repr_accumulate_sentinel T (-1) _ n (hs n (by omega)), ← hn,
      readShift_big n T.sizeOf (by omega) T.sizeOf_le,
      show 8 * (T.sizeOf - 1 - n) = 0 from by omega, Nat.shiftLeft_zero, hn,
      Nat.mod_eq_of_lt (Nat.sub_lt (Nat.pos_pow_of_pos _ (by decide)) (by decide)),
      lor_all_ones _ _ hlt]
  refine ⟨?_, ?_, ?_, ?_, ?_, hbe, ?_, ?_⟩
  · intro e i hi _
    refine ⟨hs i hi, ?_, repr_accumulate_sentinel T _ _ i (hs i hi)⟩
    rw [T.repr_conv, T.repr_neg_one]
  · rw [hle, hforms.1]
  · rw [hle, hforms.1, hforms.2]
  · intro i hi
    rw [hle, hforms.1, valueLE_byte _ i (by rw [List.length_append]; omega),
      List.getD_append _ _ _ _ hi]
  · intro j hj1 hj2
    rw [hle, Nat.testBit_or, testBit_ones_shift]
    simp [hj1, hj2]
  · rw [eq_ofRepr_of_repr T _ _ (inRange_read T _) hbe, ofRepr_all_ones]
  · intro e
    have hN := nthGet_past_end f bs h hend (T.sizeOf - 1) (by omega)
    rw [show T.sizeOf - 1 + 1 = T.sizeOf from by have := T.sizeOf_pos; omega] at hN
    rw [read_eq]
    exact ⟨hN.2.2.1, hN.2.2.2, rfl⟩

theorem short_read_witness :
    (session .little_endian [9, 0xC8, 0x01] 1).fst.Ahead [0xC8, 0x01] ∧
    (session .little_endian [9, 0xC8, 0x01] 1).fst.pos + ([0xC8, 0x01] : List Byte).length
      = (session .little_endian [9, 0xC8, 0x01] 1).fst.data.length ∧
    ([0xC8, 0x01] : List Byte).length < IntType.i32.sizeOf ∧
    (read .i32 (session .little_endian [9, 0xC8, 0x01] 1)).1 = -65080 ∧
    IntType.i32.repr (read .i32 (session .little_endian [9, 0xC8, 0x01] 1)).1 = 0xFFFF01C8 ∧
    (read .i32 (session .big_endian [9, 0xC8, 0x01] 1)).1 = -1 :=
  ⟨by decide, rfl, by decide, by decide,
    (short_read .i32 (session .little_endian [9, 0xC8, 0x01] 1).fst [0xC8, 0x01]
      (by decide) rfl (by decide)).2.2.1.trans (by decide),
    (short_read .i32 (session .little_endian [9, 0xC8, 0x01] 1).fst [0xC8, 0x01]
      (by decide) rfl (by decide)).2.2.2.2.2.2.1.trans (by decide)⟩

/-! ## Claims on the shift amount and on signed values -/

/-- Claim C15. The shift amount of `read<T>` under unsigned wrap-around: for every
width `N` in `{1, 2, 4, 8}` and every `i < N`, the expression
`id * (8 * (i + 1) - ((id == 1) ? 8 : 8 * N))`, evaluated in `size_t` arithmetic
modulo `2 ^ 64` with `id` converted to `size_t`, is `8 i` for `id = 1` and
`8 (N - 1 - i)` for `id = -1`; it is a multiple of 8 below `8 N`, so below the
width of the promoted operand that is shifted. -/
theorem readShift_correct (N i : Nat) (hN : N = 1 ∨ N = 2 ∨ N = 4 ∨ N = 8) (hi : i < N) :
    readShift 1 i N = 8 * i ∧
    readShift (-1) i N = 8 * (N - 1 - i) ∧
    (∀ e : Endianness, readShift e.toInt i N % 8 = 0 ∧ readShift e.toInt i N < 8 * N ∧
      ∀ T : IntType, T.sizeOf = N → readShift e.toInt i N < T.promote.bits) := by
  have hN8 : N ≤ 8 := by omega
  have h1 := readShift_little i N hi hN8
  have h2 := readShift_big i N hi hN8
  refine ⟨h1, h2, ?_⟩
  intro e
  have hval : readShift e.toInt i N = 8 * i ∨ readShift e.toInt i N = 8 * (N - 1 - i) := by
    cases e with
    | little_endian => exact Or.inl h1
    | big_endian => exact Or.inr h2
  refine ⟨by omega, by omega, ?_⟩
  intro T hT
  have hb : 8 * T.sizeOf ≤ T.promote.bits := by cases T <;> decide
  omega

theorem readShift_correct_witness :
    (8 = 1 ∨ 8 = 2 ∨ 8 = 4 ∨ 8 = 8) ∧ 2 < 8 ∧
    readShift 1 2 8 = 16 ∧ readShift (-1) 2 8 = 40 :=
  ⟨by decide, by decide,
    (readShift_correct 8 2 (by decide) (by decide)).1,
    (readShift_correct 8 2 (by decide) (by decide)).2.1⟩

theorem IntType.sizeOf_toUnsigned (T : IntType) : T.toUnsigned.sizeOf = T.sizeOf := by
  cases T <;> rfl

theorem IntType.repr_toUnsigned (T : IntType) (v : Int) : T.toUnsigned.repr v = T.repr v := by
  cases T <;> rfl

theorem IntType.repr_cast_repr (T : IntType) (v : Int) : T.repr ((T.repr v : Nat) : Int) = T.repr v := by
  have h := T.repr_lt v
  generalize T.repr v = p at h
  unfold IntType.repr
  rcases T.modulus_cases with hm | hm | hm | hm <;> rw [hm] at h ⊢ <;> omega

/-- The value `(v >> 8 k) & 0xFF` is the same for `v` and for the unsigned value
of its bit pattern. -/
theorem byte_of_pattern (T : IntType) (v : Int) (k : Nat) (hk : k < T.sizeOf) :
    v / 2 ^ (8 * k) % 256 = ((T.repr v : Nat) : Int) / 2 ^ (8 * k) % 256 := by
  have h1 := (byte_bounds T v k hk).1
  have h2 := (byte_bounds T ((T.repr v : Nat) : Int) k hk).1
  rw [T.repr_cast_repr] at h2
  rw [h1, h2]

/-- Claim C16. Signed values are encoded by their two's complement bit pattern: for
every integral type `T`, in particular every signed one, every value `v` (negative
ones too, where `>>` is arithmetic) and either byte order, `write<T>(v)` hands the
stream the same bytes as the write of the unsigned value `v mod 2 ^ (8 sizeof(T))`
with the unsigned type of the same width. -/
theorem write_signed_as_unsigned (T : IntType) (e : Endianness) (v : Int) (f : FStream) :
    write T v ⟨f, e⟩ = write T.toUnsigned (v % 2 ^ (8 * T.sizeOf)) ⟨f, e⟩ ∧
    T.toUnsigned.InRange (v % 2 ^ (8 * T.sizeOf)) ∧
    T.toUnsigned.isSigned = false ∧ T.toUnsigned.sizeOf = T.sizeOf ∧
    ∃ cs : List Int, write T v ⟨f, e⟩ = ⟨f.putAll cs, e⟩ ∧
      write T.toUnsigned (v % 2 ^ (8 * T.sizeOf)) ⟨f, e⟩ = ⟨f.putAll cs, e⟩ ∧
      cs.map Byte.ofInt = encode e T v := by
  have hv : v % 2 ^ (8 * T.sizeOf) = ((T.repr v : Nat) : Int) := by
    unfold IntType.repr
    rw [T.modulus_eq]
    have hpos : (0 : Int) < 2 ^ (8 * T.sizeOf) := by positivity
    have := Int.emod_nonneg v (ne_of_gt hpos)
    push_cast
    omega
  have hw : write T v ⟨f, e⟩ = write T.toUnsigned (v % 2 ^ (8 * T.sizeOf)) ⟨f, e⟩ := by
    rw [hv]
    cases e with
    | little_endian =>
      rw [write_little, write_little, T.sizeOf_toUnsigned]
      congr 2
      exact List.map_congr_left (fun i hi => byte_of_pattern T v i (List.mem_range.mp hi))
    | big_endian =>
      rw [write_big, write_big, T.sizeOf_toUnsigned]
      congr 2
      exact List.map_congr_left (fun i hi =>
        byte_of_pattern T v (T.sizeOf - 1 - i) (by have := List.mem_range.mp hi; omega))
  refine ⟨hw, ?_, by cases T <;> rfl, T.sizeOf_toUnsigned, ?_⟩
  · rw [hv]
    apply inRange_natCast _ (by cases T <;> rfl)
    have := T.repr_lt v
    have hm : T.toUnsigned.modulus = T.modulus := by cases T <;> rfl
    omega
  · obtain ⟨cs, hcs, hst⟩ := write_stored T e v f
    refine ⟨cs, hcs, by rw [← hw, hcs], ?_⟩
    rw [hst]
    cases e <;> rfl


theorem write_signed_as_unsigned_witness :
    write .i16 (-2) (session .little_endian [] 0)
      = write .u16 0xFFFE (session .little_endian [] 0) ∧
    (write .i16 (-2) (session .little_endian [] 0)).fst.data = [0xFE, 0xFF] ∧
    (write .u16 0xFFFE (session .little_endian [] 0)).fst.data = [0xFE, 0xFF] :=
  ⟨(write_signed_as_unsigned .i16 .little_endian (-2) (session .little_endian [] 0).fst).1,
    by decide, by decide⟩

/-! ## Sequences of calls -/

theorem FStream.putAll_append (f : FStream) (a b : List Int) :
    f.putAll (a ++ b) = (f.putAll a).putAll b := by
  unfold FStream.putAll
  rw [List.foldl_append]

theorem length_encode (e : Endianness) (T : IntType) (v : Int) :
    (encode e T v).length = T.sizeOf := by
  cases e <;> simp [encode, length_bytesLE]

/-- What one `write<T>(v)` hands the stream: values that store the encoding. -/
theorem write_encode (T : IntType) (e : Endianness) (v : Int) (f : FStream) :
    ∃ cs : List Int, write T v ⟨f, e⟩ = ⟨f.putAll cs, e⟩ ∧
      cs.map Byte.ofInt = encode e T v := by
  obtain ⟨cs, hcs, hst⟩ := write_stored T e v f
  refine ⟨cs, hcs, ?_⟩
  rw [hst]
  cases e <;> rfl

theorem writeAll_encode (e : Endianness) (vs : List (IntType × Int)) (f : FStream) :
    ∃ cs : List Int, writeAll vs ⟨f, e⟩ = ⟨f.putAll cs, e⟩ ∧
      cs.map Byte.ofInt = encodeAll e vs := by
  induction vs generalizing f with
  | nil => exact ⟨[], rfl, rfl⟩
  | cons x vs ih =>
    obtain ⟨cs1, h1, h2⟩ := write_encode x.1 e x.2 f
    obtain ⟨cs2, h3, h4⟩ := ih (f.putAll cs1)
    refine ⟨cs1 ++ cs2, ?_, ?_⟩
    · show writeAll vs (write x.1 x.2 ⟨f, e⟩) = _
      rw [h1, h3, FStream.putAll_append]
    · rw [List.map_append, h2, h4]
      rfl

theorem length_encodeAll (e : Endianness) (vs : List (IntType × Int)) :
    (encodeAll e vs).length = (vs.map (fun x => x.1.sizeOf)).sum := by
  induction vs with
  | nil => rfl
  | cons x vs ih =>
    simp only [encodeAll, List.length_append, length_encode, ih, List.map_cons, List.sum_cons]

/-- The bytes ahead split: the first part lies ahead, and the rest lies ahead once
the position has moved over the first part. -/
theorem FStream.Ahead.split {f : FStream} {a b : List Byte} (h : f.Ahead (a ++ b)) :
    f.Ahead a ∧ ({ f with pos := f.pos + a.length } : FStream).Ahead b := by
  have hget : ∀ i, i < a.length + b.length → f.data[f.pos + i]? = (a ++ b)[i]? :=
    fun i hi => h.getElem? i (by rw [List.length_append]; exact hi)
  refine ⟨⟨h.1, ?_⟩, ⟨h.1, ?_⟩⟩
  · apply List.ext_getElem?
    intro i
    by_cases hi : i < a.length
    · rw [List.getElem?_take_of_lt hi, List.getElem?_drop, hget i (by omega),
        List.getElem?_append_left hi]
    · rw [List.getElem?_eq_none (by simp; omega), List.getElem?_eq_none (by omega)]
  · apply List.ext_getElem?
    intro i
    by_cases hi : i < b.length
    · rw [List.getElem?_take_of_lt hi, List.getElem?_drop]
      show f.data[f.pos + a.length + i]? = _
      rw [Nat.add_assoc, hget (a.length + i) (by omega),
        List.getElem?_append_right (by omega), Nat.add_sub_cancel_left]
    · rw [List.getElem?_eq_none (by simp; omega), List.getElem?_eq_none (by omega)]

/-- Reading where the encoding of a value of `T` lies ahead gives the value. -/
theorem read_encode (T : IntType) (e : Endianness) (v : Int) (hv : T.InRange v) (f : FStream)
    (h : f.Ahead (encode e T v)) : (read T ⟨f, e⟩).1 = v := by
  apply T.eq_of_repr_eq _ _ (inRange_read T _) hv
  cases e with
  | little_endian =>
    rw [read_ahead_little T f _ (length_encode _ T v) h]
    exact valueLE_bytesLE_repr T v
  | big_endian =>
    rw [read_ahead_big T f _ (length_encode _ T v) h, valueBE_eq_valueLE_reverse]
    show valueLE (bytesLE (T.repr v) T.sizeOf).reverse.reverse = _
    rw [List.reverse_reverse, valueLE_bytesLE_repr]

theorem readAll_encode (e : Endianness) (vs : List (IntType × Int))
    (hv : ∀ x ∈ vs, x.1.InRange x.2) (f : FStream) (h : f.Ahead (encodeAll e vs)) :
    (readAll (vs.map Prod.fst) ⟨f, e⟩).1 = vs.map Prod.snd := by
  induction vs generalizing f with
  | nil => rfl
  | cons x vs ih =>
    have hs := FStream.Ahead.split (show f.Ahead (encode e x.1 x.2 ++ encodeAll e vs) from h)
    have h1 := read_encode x.1 e x.2 (hv x (List.mem_cons_self _ _)) f hs.1
    have h2 := read_ahead x.1 ⟨f, e⟩ _ (length_encode e x.1 x.2) hs.1
    have h3 := hs.2
    rw [length_encode] at h3
    have h4 := ih (fun y hy => hv y (List.mem_cons_of_mem _ hy)) _ h3
    show (read x.1 ⟨f, e⟩).1 :: (readAll (vs.map Prod.fst) (read x.1 ⟨f, e⟩).2).1 = _
    rw [h1, h2, h4]
    rfl


/-! ## Claims on composition, inverses and mirror images -/

/-- Claim C17. Calls compose independently: for either byte order, writing a list
of values of integral types in order on a good stream hands the stream the
concatenation of the individual encodings, `N_1 + .. + N_m` bytes from the starting
position on; seeking back to that position and reading with the same types in the
same order returns the values. What one call stores or returns is what it stores
or returns on its own. -/
theorem calls_compose (e : Endianness) (vs : List (IntType × Int)) (f : FStream)
    (hv : ∀ x ∈ vs, x.1.InRange x.2) (hg : f.good = true) (hp : f.pos < 2 ^ 63) :
    (∀ x ∈ vs, ∀ g : FStream, ∃ cs : List Int,
      write x.1 x.2 ⟨g, e⟩ = ⟨g.putAll cs, e⟩ ∧ cs.map Byte.ofInt = encode e x.1 x.2 ∧
      (g.Ahead (encode e x.1 x.2) → (read x.1 ⟨g, e⟩).1 = x.2)) ∧
    (∃ cs : List Int, writeAll vs ⟨f, e⟩ = ⟨f.putAll cs, e⟩ ∧
      cs.map Byte.ofInt = encodeAll e vs) ∧
    (encodeAll e vs).length = (vs.map (fun x => x.1.sizeOf)).sum ∧
    (writeAll vs ⟨f, e⟩).fst.pos = f.pos + (vs.map (fun x => x.1.sizeOf)).sum ∧
    (seek f.pos .beg (writeAll vs ⟨f, e⟩)).fst.Ahead (encodeAll e vs) ∧
    (readAll (vs.map Prod.fst) (seek f.pos .beg (writeAll vs ⟨f, e⟩))).1 = vs.map Prod.snd := by
  obtain ⟨cs, hw, hcs⟩ := writeAll_encode e vs f
  have ha := ahead_after_putAll f cs hg hp
  rw [hcs] at ha
  refine ⟨?_, ⟨cs, hw, hcs⟩, length_encodeAll e vs, ?_, ?_, ?_⟩
  · intro x hx g
    obtain ⟨c1, h1, h2⟩ := write_encode x.1 e x.2 g
    exact ⟨c1, h1, h2, read_encode x.1 e x.2 (hv x hx) g⟩
  · rw [hw, FStream.putAll_good cs f hg, ← length_encodeAll, ← hcs, List.length_map]
  · rw [hw]
    exact ha
  · rw [hw]
    exact readAll_encode e vs hv _ ha

theorem calls_compose_witness :
    (∀ x ∈ [(IntType.i16, (-2 : Int)), (IntType.u8, 7), (IntType.u32, 0x01020304)],
      x.1.InRange x.2) ∧
    (session .big_endian [9] 1).fst.good = true ∧
    (writeAll [(.i16, -2), (.u8, 7), (.u32, 0x01020304)] (session .big_endian [9] 1)).fst.data
      = [9, 0xFF, 0xFE, 7, 1, 2, 3, 4] ∧
    (readAll [.i16, .u8, .u32] (seek 1 .beg
      (writeAll [(.i16, -2), (.u8, 7), (.u32, 0x01020304)] (session .big_endian [9] 1)))).1
      = [-2, 7, 0x01020304] :=
  ⟨by decide, rfl, by decide,
    (calls_compose .big_endian [(.i16, -2), (.u8, 7), (.u32, 0x01020304)]
      (session .big_endian [9] 1).fst (by decide) rfl (by decide)).2.2.2.2.2⟩

/-- The values that `write<T>` hands the stream for what `read<T>` returned on the
bytes `bs`: the bytes `bs`. -/
theorem putArgs_of_read (T : IntType) (e : Endianness) (f : FStream) (bs : List Byte)
    (hlen : bs.length = T.sizeOf) (h : f.Ahead bs) :
    (match e with
      | .little_endian =>
        (List.range T.sizeOf).map (fun i => (read T ⟨f, e⟩).1 / 2 ^ (8 * i) % 256)
      | .big_endian =>
        (List.range T.sizeOf).map
          (fun i => (read T ⟨f, e⟩).1 / 2 ^ (8 * (T.sizeOf - 1 - i)) % 256))
      = bs.map (fun b => ((b.val : Nat) : Int)) := by
  cases e with
  | little_endian =>
    apply List.ext_getElem
    · simp [hlen]
    · intro i h1 h2
      have hi : i < T.sizeOf := by simpa using h1
      simp only [List.getElem_map, List.getElem_range]
      rw [(byte_bounds T _ i hi).1, read_ahead_little T f bs hlen h,
        valueLE_byte bs i (by omega), List.getD_eq_getElem _ _ (by omega)]
  | big_endian =>
    apply List.ext_getElem
    · simp [hlen]
    · intro i h1 h2
      have hi : i < T.sizeOf := by simpa using h1
      simp only [List.getElem_map, List.getElem_range]
      rw [(byte_bounds T _ (T.sizeOf - 1 - i) (by omega)).1, read_ahead_big T f bs hlen h,
        valueBE_eq_valueLE_reverse, ← hlen,
        valueLE_byte bs.reverse (bs.length - 1 - i) (by rw [List.length_reverse]; omega),
        getD_reverse bs i (by omega), List.getD_eq_getElem _ _ (by omega)]

theorem map_ofInt_val (bs : List Byte) :
    (bs.map (fun b => ((b.val : Nat) : Int))).map Byte.ofInt = bs := by
  rw [List.map_map]
  conv => rhs; rw [← List.map_id bs]
  apply List.map_congr_left
  intro b _
  apply Fin.ext
  have := b.isLt
  simp only [Function.comp, Byte.ofInt, id]
  omega

/-- Claim C18. Write is a right inverse of read: when the `sizeof(T)` bytes `bs`
lie ahead, writing the value that `read<T>` returns, with `write<T>` under the same
byte order, hands any stream exactly the bytes `bs`; so two different sequences of
`sizeof(T)` bytes never decode to the same value. -/
theorem write_read_roundtrip (T : IntType) (e : Endianness) (f : FStream) (bs : List Byte)
    (hlen : bs.length = T.sizeOf) (h : f.Ahead bs) :
    (∀ g : FStream, write T (read T ⟨f, e⟩).1 ⟨g, e⟩
      = ⟨g.putAll (bs.map (fun b => ((b.val : Nat) : Int))), e⟩) ∧
    (bs.map (fun b => ((b.val : Nat) : Int))).map Byte.ofInt = bs ∧
    encode e T (read T ⟨f, e⟩).1 = bs ∧
    (∀ (f2 : FStream) (bs2 : List Byte), bs2.length = T.sizeOf → f2.Ahead bs2 →
      bs2 ≠ bs → (read T ⟨f2, e⟩).1 ≠ (read T ⟨f, e⟩).1) := by
  have hargs := putArgs_of_read T e f bs hlen h
  have hw : ∀ g : FStream, write T (read T ⟨f, e⟩).1 ⟨g, e⟩
      = ⟨g.putAll (bs.map (fun b => ((b.val : Nat) : Int))), e⟩ := by
    intro g
    cases e with
    | little_endian => rw [write_little, ← hargs]
    | big_endian => rw [write_big, ← hargs]
  refine ⟨hw, map_ofInt_val bs, ?_, ?_⟩
  · cases e with
    | little_endian =>
      simp only at hargs
      show bytesLE _ _ = bs
      rw [← stored_little, hargs, map_ofInt_val]
    | big_endian =>
      simp only at hargs
      show (bytesLE _ _).reverse = bs
      rw [← stored_big, hargs, map_ofInt_val]
  · intro f2 bs2 hlen2 h2 hne heq
    apply hne
    have r1 := read_ahead_repr T e f bs hlen h
    have r2 := read_ahead_repr T e f2 bs2 hlen2 h2
    rw [heq, r1] at r2
    cases e with
    | little_endian =>
      exact valueLE_injective bs2 bs (by omega) r2.symm
    | big_endian =>
      simp only [valueBE_eq_valueLE_reverse] at r2
      have := valueLE_injective bs2.reverse bs.reverse
        (by rw [List.length_reverse, List.length_reverse]; omega) r2.symm
      exact List.reverse_injective this

theorem write_read_roundtrip_witness :
    ([0x80, 0x01] : List Byte).length = IntType.i16.sizeOf ∧
    (session .big_endian [0x80, 0x01] 0).fst.Ahead [0x80, 0x01] ∧
    (read .i16 (session .big_endian [0x80, 0x01] 0)).1 = -32767 ∧
    (write .i16 (read .i16 (session .big_endian [0x80, 0x01] 0)).1
      (session .big_endian [] 0)).fst.data = [0x80, 0x01] :=
  ⟨rfl, by decide, by decide,
    (congrArg (fun s : IOF => s.fst.data)
      ((write_read_roundtrip .i16 .big_endian (session .big_endian [0x80, 0x01] 0).fst
        [0x80, 0x01] rfl (by decide)).1 (session .big_endian [] 0).fst)).trans (by decide)⟩

/-- Claim C19. The two byte orders are mirror images: the values that `write<T>(v)`
hands the stream on a big-endian session are those of a little-endian session in
reverse order, so the stored bytes are reversed; and `read<T>` on a big-endian
session where `bs` lies ahead returns what it returns on a little-endian session
where the reversal of `bs` lies ahead. -/
theorem byte_orders_mirror (T : IntType) (v : Int) (f : FStream) :
    (∃ cs : List Int, cs.length = T.sizeOf ∧
      write T v ⟨f, .little_endian⟩ = ⟨f.putAll cs, .little_endian⟩ ∧
      write T v ⟨f, .big_endian⟩ = ⟨f.putAll cs.reverse, .big_endian⟩) ∧
    encode .big_endian T v = (encode .little_endian T v).reverse ∧
    (∀ (bs : List Byte) (g h : FStream), bs.length = T.sizeOf → g.Ahead bs →
      h.Ahead bs.reverse → (read T ⟨g, .big_endian⟩).1 = (read T ⟨h, .little_endian⟩).1) := by
  refine ⟨⟨_, by simp, write_little T v f, ?_⟩, rfl, ?_⟩
  · rw [write_big, map_range_reflect (fun i => v / 2 ^ (8 * i) % 256)]
  · intro bs g h hlen hg hh
    apply T.eq_of_repr_eq _ _ (inRange_read T _) (inRange_read T _)
    rw [read_ahead_big T g bs hlen hg,
      read_ahead_little T h bs.reverse (by rw [List.length_reverse]; exact hlen) hh,
      valueBE_eq_valueLE_reverse]

theorem byte_orders_mirror_witness :
    ([1, 2, 3, 4] : List Byte).length = IntType.u32.sizeOf ∧
    (session .big_endian [1, 2, 3, 4] 0).fst.Ahead [1, 2, 3, 4] ∧
    (session .little_endian [4, 3, 2, 1] 0).fst.Ahead ([1, 2, 3, 4] : List Byte).reverse ∧
    (read .u32 (session .big_endian [1, 2, 3, 4] 0)).1
      = (read .u32 (session .little_endian [4, 3, 2, 1] 0)).1 ∧
    (write .u32 0x01020304 (session .big_endian [] 0)).fst.data
      = ((write .u32 0x01020304 (session .little_endian [] 0)).fst.data).reverse :=
  ⟨rfl, by decide, by decide,
    (byte_orders_mirror .u32 0 (session .big_endian [] 0).fst).2.2 [1, 2, 3, 4]
      (session .big_endian [1, 2, 3, 4] 0).fst (session .little_endian [4, 3, 2, 1] 0).fst
      rfl (by decide) (by decide),
    by decide⟩

end IOF
